import Mathlib

/-!
# Thread pool of `src/util/virthreadpool.c`

A shallow embedding of the job queue, the worker loop, the expansion
primitive, the constructor and the submission path of the thread pool, and
the properties of them that the specification states.

Conventions of the embedding.

* Pointers to job records are natural numbers, `0` is `NULL`.  The job
  records live in a heap `Nat → Option virThreadPoolJob`; `none` is memory
  that holds no job record.  Reading or writing through `NULL` or through an
  address without a record is undefined behaviour in C and makes the
  embedded function return `none`.
* `size_t` values are natural numbers below `2 ^ 64`; `++`, `--` and `-`
  on them are taken modulo `2 ^ 64` (`sizeAdd`, `sizeSub`).
* The outcome of what the pool calls but does not define (memory
  allocation, thread creation, the condition wait) is a parameter of the
  embedded function.
* A function that holds the mutex runs atomically; the worker is cut at the
  places where it gives the mutex up (`WorkerPc`).  The constructor is one
  step: the pool is handed out only when it returns.
* A loop whose end depends on the heap (`scanPrio`) takes a bound on its
  iterations, the fuel; with too little fuel the function returns `none`.
  The theorems say how much fuel is enough.
-/

namespace VirThreadPool

/-! ## Machine arithmetic -/

/-- Number of values of a `size_t` and of a pointer. -/
def SIZE_MOD : Nat := 2 ^ 64

/-- Addition of two `size_t` values. -/
def sizeAdd (a b : Nat) : Nat := (a + b) % SIZE_MOD

/-- Subtraction of two `size_t` values: the result wraps below zero. -/
def sizeSub (a b : Nat) : Nat := (a + (SIZE_MOD - b % SIZE_MOD)) % SIZE_MOD

/-! ## Data model -/

/-- Record `struct _virThreadPoolJob`. -/
structure virThreadPoolJob where
  prev : Nat
  next : Nat
  priority : Nat
  data : Nat
  deriving DecidableEq, Repr

/-- Record `struct _virThreadPoolJobList`. -/
structure virThreadPoolJobList where
  head : Nat
  tail : Nat
  firstPrio : Nat
  deriving DecidableEq, Repr

/-- Heap of job records. -/
abbrev JobMem := Nat → Option virThreadPoolJob

/-- Record `struct _virThreadPool`, without the fields that hold the job
function, the mutex, the condition variables and the thread handles; `mem`
is the heap its job pointers point into. -/
structure virThreadPool where
  quit : Bool
  jobList : virThreadPoolJobList
  jobQueueDepth : Nat
  maxWorkers : Nat
  minWorkers : Nat
  freeWorkers : Nat
  nWorkers : Nat
  nPrioWorkers : Nat
  mem : JobMem

/-- Read through a pointer: `none` for `NULL` and for an address that holds
no job record. -/
def load (mem : JobMem) (p : Nat) : Option virThreadPoolJob :=
  if p = 0 then none else mem p

/-- Write a job record at an address. -/
def store (mem : JobMem) (a : Nat) (v : virThreadPoolJob) : JobMem :=
  fun b => if b = a then some v else mem b

/-- Effect of `VIR_FREE(job)` on the heap. -/
def release (mem : JobMem) (a : Nat) : JobMem :=
  fun b => if b = a then none else mem b

/-! ## virThreadPoolExpand -/

/-- Outcome of one iteration of the spawn loop of `virThreadPoolExpand`. -/
inductive SpawnOutcome where
  /-- Both `VIR_ALLOC(data)` and `virThreadCreateFull` succeeded. -/
  | started
  /-- The call `VIR_ALLOC(data)` failed. -/
  | allocFailed
  /-- The call `virThreadCreateFull` failed. -/
  | createFailed
  deriving DecidableEq, Repr

/-- What `virThreadPoolExpand` gets from the outside: whether
`VIR_EXPAND_N` manages to grow the worker array (on success that macro adds
`gain` to the counter, on failure it leaves the counter alone), and the
outcome of the spawn attempted at each loop index. -/
structure ExpandEnv where
  growOk : Bool
  spawn : Nat → SpawnOutcome

/-- The loop `for (i = 0; i < gain; i++)` of `virThreadPoolExpand`, entered
at index `i` with `remaining = gain - i` iterations to go.  Returns the index
at which the loop was left and whether it ran to completion (`true`) or
jumped to `error` (`false`). -/
def expandLoop (spawn : Nat → SpawnOutcome) : Nat → Nat → Nat × Bool
  | 0, i => (i, true)
  | remaining + 1, i =>
    match spawn i with
    | SpawnOutcome.started => expandLoop spawn remaining (i + 1)
    | SpawnOutcome.allocFailed => (i, false)
    | SpawnOutcome.createFailed => (i, false)

/-- Assignment through `curWorkers`, which points at `nPrioWorkers` or at
`nWorkers`. -/
def setCurWorkers (pool : virThreadPool) (priority : Bool) (n : Nat) : virThreadPool :=
  if priority then { pool with nPrioWorkers := n } else { pool with nWorkers := n }

/-- Value read through `curWorkers`. -/
def curWorkers (pool : virThreadPool) (priority : Bool) : Nat :=
  if priority then pool.nPrioWorkers else pool.nWorkers

/-- Function `virThreadPoolExpand`.  Returns the C return value, the pool
afterwards and the number of worker threads it started. -/
def virThreadPoolExpand (env : ExpandEnv) (pool : virThreadPool) (gain : Nat)
    (priority : Bool) : Int × virThreadPool × Nat :=
  if env.growOk = false then (-1, pool, 0)
  else
    let grown := setCurWorkers pool priority (sizeAdd (curWorkers pool priority) gain)
    match expandLoop env.spawn gain 0 with
    | (_, true) => (0, grown, gain)
    | (i, false) =>
      (-1, setCurWorkers grown priority (sizeSub (curWorkers grown priority) (sizeSub gain i)), i)

/-! ## virThreadPoolSendJob -/

/-- What `virThreadPoolSendJob` gets from the outside: the environment of
the expansion it may try, and the result of `VIR_ALLOC(job)` (`none` on
failure, else the address of the new zero-filled record). -/
structure SendEnv where
  expand : ExpandEnv
  jobAlloc : Option Nat

/-- Lines 315-318 of `virThreadPoolSendJob`: the test that guards the
expansion and, where it holds, the call `virThreadPoolExpand(pool, 1, false)`.
Returns what `virThreadPoolExpand` returns, and `0` with no thread started
when it is not called. -/
def sendJobExpand (env : ExpandEnv) (pool : virThreadPool) : Int × virThreadPool × Nat :=
  if sizeSub pool.freeWorkers pool.jobQueueDepth ≤ 0 ∧ pool.nWorkers < pool.maxWorkers then
    virThreadPoolExpand env pool 1 false
  else (0, pool, 0)

/-- Lines 323-337 of `virThreadPoolSendJob`: fill the new record at `job`,
splice it in at `tail`, set `head` and `firstPrio` where they were `NULL`
and count the job.  `none` if `tail` is not `NULL` and holds no record. -/
def enqueueJob (pool : virThreadPool) (job : Nat) (priority : Nat) (jobData : Nat) :
    Option virThreadPool :=
  let mem1 := store pool.mem job ⟨pool.jobList.tail, 0, priority, jobData⟩
  let linked : Option JobMem :=
    if pool.jobList.tail ≠ 0 then
      (load mem1 pool.jobList.tail).map
        (fun t => store mem1 pool.jobList.tail { t with next := job })
    else some mem1
  match linked with
  | none => none
  | some mem2 =>
    let head2 := if pool.jobList.head = 0 then job else pool.jobList.head
    let firstPrio2 :=
      if priority ≠ 0 ∧ pool.jobList.firstPrio = 0 then job else pool.jobList.firstPrio
    some { pool with
            jobList := ⟨head2, job, firstPrio2⟩
            jobQueueDepth := sizeAdd pool.jobQueueDepth 1
            mem := mem2 }

/-- Function `virThreadPoolSendJob`.  Returns the C return value, the pool
afterwards and the number of worker threads started; `none` if it
dereferences an address without a job record. -/
def virThreadPoolSendJob (env : SendEnv) (pool : virThreadPool) (priority : Nat)
    (jobData : Nat) : Option (Int × virThreadPool × Nat) :=
  if pool.quit then some (-1, pool, 0)
  else
    match sendJobExpand env.expand pool with
    | (ret, pool1, started) =>
      if ret < 0 then some (-1, pool1, started)
      else
        match env.jobAlloc with
        | none => some (-1, pool1, started)
        | some job =>
          match enqueueJob pool1 job priority jobData with
          | none => none
          | some pool2 => some (0, pool2, started)

/-! ## virThreadPoolWorker -/

/-- The scan `while (tmp) { if (tmp->priority) break; tmp = tmp->next; }` of
`virThreadPoolWorker`, started at `tmp`.  The loop is bounded by `fuel`
iterations: `none` when the fuel runs out before the loop ends, or when
`tmp` holds no job record. -/
def scanPrio (mem : JobMem) : Nat → Nat → Option Nat
  | 0, tmp => if tmp = 0 then some 0 else none
  | fuel + 1, tmp =>
    if tmp = 0 then some 0
    else
      match mem tmp with
      | none => none
      | some t => if t.priority ≠ 0 then some tmp else scanPrio mem fuel t.next

/-- Lines 117-142 of `virThreadPoolWorker`: pick the job (`firstPrio` for a
priority worker, `head` otherwise), move `firstPrio` on if it was the job
picked, unlink the job and decrement `jobQueueDepth`.  Returns the job
picked and the pool afterwards. -/
def workerTakeJob (fuel : Nat) (priority : Bool) (pool : virThreadPool) :
    Option (Nat × virThreadPool) :=
  let job := if priority then pool.jobList.firstPrio else pool.jobList.head
  match load pool.mem job with
  | none => none
  | some j =>
    let scanned : Option Nat :=
      if job = pool.jobList.firstPrio then scanPrio pool.mem fuel j.next
      else some pool.jobList.firstPrio
    match scanned with
    | none => none
    | some firstPrio1 =>
      let unlinkedPrev : Option (JobMem × Nat) :=
        if j.prev ≠ 0 then
          (load pool.mem j.prev).map
            (fun p => (store pool.mem j.prev { p with next := j.next }, pool.jobList.head))
        else some (pool.mem, j.next)
      match unlinkedPrev with
      | none => none
      | some (mem1, head1) =>
        match load mem1 job with
        | none => none
        | some j1 =>
          let unlinkedNext : Option (JobMem × Nat) :=
            if j1.next ≠ 0 then
              (load mem1 j1.next).map
                (fun n => (store mem1 j1.next { n with prev := j1.prev }, pool.jobList.tail))
            else some (mem1, j1.prev)
          match unlinkedNext with
          | none => none
          | some (mem2, tail2) =>
            some (job, { pool with
                          jobList := ⟨head1, tail2, firstPrio1⟩
                          jobQueueDepth := sizeSub pool.jobQueueDepth 1
                          mem := mem2 })

/-- Places at which a worker thread does not hold the mutex. -/
inductive WorkerPc where
  /-- About to take the mutex for the first time (line 97). -/
  | entry
  /-- Blocked in `virCondWait` (line 105). -/
  | waiting
  /-- Running the job function on `job` (line 145). -/
  | running (job : Nat)
  deriving DecidableEq, Repr

/-- Label `out` of `virThreadPoolWorker`, lines 150-157: the worker takes
itself off its counter. -/
def workerOut (priority : Bool) (pool : virThreadPool) : virThreadPool :=
  if priority then { pool with nPrioWorkers := sizeSub pool.nPrioWorkers 1 }
  else { pool with nWorkers := sizeSub pool.nWorkers 1 }

/-- The worker from the test of the inner `while` (line 100), mutex held, to
the next place where it gives the mutex up: it goes to wait, leaves (the
result has no `WorkerPc`), or takes a job. -/
def workerLoop (fuel : Nat) (priority : Bool) (pool : virThreadPool) :
    Option (virThreadPool × Option WorkerPc) :=
  if pool.quit = false ∧
      ((priority = false ∧ pool.jobList.head = 0) ∨
       (priority = true ∧ pool.jobList.firstPrio = 0)) then
    some (if priority then pool
          else { pool with freeWorkers := sizeAdd pool.freeWorkers 1 },
          some WorkerPc.waiting)
  else if pool.quit then some (workerOut priority pool, none)
  else
    (workerTakeJob fuel priority pool).map
      (fun r => (r.2, some (WorkerPc.running r.1)))

/-- Function `virThreadPoolWorker`, one atomic section of it: from the
place `pc` to the next place where the mutex is given up.  The flag
`condWaitOk` is whether the `virCondWait` the worker returns from did not
fail; it is read at `waiting` only. -/
def virThreadPoolWorker (fuel : Nat) (condWaitOk : Bool) (priority : Bool)
    (pc : WorkerPc) (pool : virThreadPool) : Option (virThreadPool × Option WorkerPc) :=
  match pc with
  | WorkerPc.entry => workerLoop fuel priority pool
  | WorkerPc.waiting =>
    let pool1 :=
      if priority then pool
      else { pool with freeWorkers := sizeSub pool.freeWorkers 1 }
    if condWaitOk then workerLoop fuel priority pool1
    else some (workerOut priority pool1, none)
  | WorkerPc.running job =>
    workerLoop fuel priority { pool with mem := release pool.mem job }

/-! ## virThreadPoolNewFull and virThreadPoolFree -/

/-- A worker thread: its class and where it stands. -/
structure Worker where
  priority : Bool
  pc : WorkerPc
  deriving DecidableEq, Repr

/-- A pool together with its live worker threads. -/
structure Sys where
  pool : virThreadPool
  workers : List Worker

/-- What `virThreadPoolNewFull` gets from the outside. -/
structure NewEnv where
  poolAllocOk : Bool
  mutexInitOk : Bool
  condInitOk : Bool
  quitCondInitOk : Bool
  prioCondInitOk : Bool
  expand : ExpandEnv
  expandPrio : ExpandEnv

/-- The pool right after `VIR_ALLOC(pool)`: every field zero. -/
def zeroPool : virThreadPool :=
  { quit := false, jobList := ⟨0, 0, 0⟩, jobQueueDepth := 0, maxWorkers := 0,
    minWorkers := 0, freeWorkers := 0, nWorkers := 0, nPrioWorkers := 0,
    mem := fun _ => none }

/-- Function `virThreadPoolNewFull`: the pool and the threads it started, or
`none` where the C function returns `NULL`. -/
def virThreadPoolNewFull (env : NewEnv) (minWorkers maxWorkers prioWorkers : Nat) :
    Option Sys :=
  let minWorkers := if minWorkers > maxWorkers then maxWorkers else minWorkers
  if env.poolAllocOk = false then none
  else if env.mutexInitOk = false then none
  else if env.condInitOk = false then none
  else if env.quitCondInitOk = false then none
  else
    let pool0 := { zeroPool with minWorkers := minWorkers, maxWorkers := maxWorkers }
    match virThreadPoolExpand env.expand pool0 minWorkers false with
    | (ret, pool1, started) =>
      if ret < 0 then none
      else
        let ordinary := List.replicate started (Worker.mk false WorkerPc.entry)
        if prioWorkers ≠ 0 then
          if env.prioCondInitOk = false then none
          else
            match virThreadPoolExpand env.expandPrio pool1 prioWorkers true with
            | (ret2, pool2, started2) =>
              if ret2 < 0 then none
              else
                some ⟨pool2, ordinary ++ List.replicate started2 (Worker.mk true WorkerPc.entry)⟩
        else some ⟨pool1, ordinary⟩

/-- First section of `virThreadPoolFree`, lines 256-263: under the mutex
`quit` is set (and the workers are woken). -/
def virThreadPoolFreeSetQuit (pool : virThreadPool) : virThreadPool :=
  { pool with quit := true }

/-! ## Runs of the pool -/

/-- The contract of `VIR_ALLOC(job)`: a result that is not a failure is the
address of memory that is not `NULL`, fits a pointer and held no job record
before. -/
def FreshAlloc (mem : JobMem) (r : Option Nat) : Prop :=
  ∀ a, r = some a → a ≠ 0 ∧ a < SIZE_MOD ∧ mem a = none

instance (mem : JobMem) (r : Option Nat) : Decidable (FreshAlloc mem r) :=
  match r with
  | none => isTrue (by intro a h; cases h)
  | some a =>
    if h : a ≠ 0 ∧ a < SIZE_MOD ∧ mem a = none then
      isTrue (by intro b hb; cases hb; exact h)
    else isFalse (fun hf => h (hf a rfl))

/-- What happens to the pool. -/
inductive PoolEvent where
  /-- A producer calls `virThreadPoolSendJob`. -/
  | sendJob (env : SendEnv) (priority : Nat) (data : Nat)
  /-- The worker at index `idx` of the thread list runs its next section. -/
  | worker (idx : Nat) (fuel : Nat) (condWaitOk : Bool)
  /-- The owner enters `virThreadPoolFree`. -/
  | free

/-- One event on a pool with its threads; `none` when the event cannot
happen in this state. -/
def sysStep (s : Sys) : PoolEvent → Option Sys
  | PoolEvent.sendJob env priority data =>
    if FreshAlloc s.pool.mem env.jobAlloc then
      match virThreadPoolSendJob env s.pool priority data with
      | none => none
      | some (_, pool1, started) =>
        some ⟨pool1, s.workers ++ List.replicate started (Worker.mk false WorkerPc.entry)⟩
    else none
  | PoolEvent.worker idx fuel condWaitOk =>
    match s.workers.get? idx with
    | none => none
    | some w =>
      match virThreadPoolWorker fuel condWaitOk w.priority w.pc s.pool with
      | none => none
      | some (pool1, some pc1) => some ⟨pool1, s.workers.set idx ⟨w.priority, pc1⟩⟩
      | some (pool1, none) => some ⟨pool1, s.workers.eraseIdx idx⟩
  | PoolEvent.free => some ⟨virThreadPoolFreeSetQuit s.pool, s.workers⟩

/-- A sequence of events. -/
def sysRun (s : Sys) : List PoolEvent → Option Sys
  | [] => some s
  | e :: es =>
    match sysStep s e with
    | none => none
    | some s1 => sysRun s1 es

/-- Operations on the job queue. -/
inductive QueueOp where
  /-- A submission that succeeds. -/
  | submit (env : SendEnv) (priority : Nat) (data : Nat)
  /-- An ordinary worker takes the job at `head` and runs it. -/
  | takeOrdinary (fuel : Nat)
  /-- A priority worker takes the job at `firstPrio` and runs it. -/
  | takePriority (fuel : Nat)

/-- What one queue operation shows to the outside. -/
inductive QueueObs where
  /-- A job with this data was accepted. -/
  | submitted (data : Nat)
  /-- The job function was called on this data, by a worker of the class
  given. -/
  | ran (priority : Bool) (data : Nat)
  deriving DecidableEq, Repr

/-- A worker that stands at `entry` takes a job, runs the job function on
its data and frees the record.  `none` when the worker does not get a job in
this state (it would wait or leave). -/
def workerRunsJob (fuel : Nat) (priority : Bool) (pool : virThreadPool) :
    Option (virThreadPool × QueueObs) :=
  match virThreadPoolWorker fuel true priority WorkerPc.entry pool with
  | some (pool1, some (WorkerPc.running job)) =>
    match pool1.mem job with
    | none => none
    | some j => some ({ pool1 with mem := release pool1.mem job }, QueueObs.ran priority j.data)
  | _ => none

/-- One queue operation; `none` when it cannot happen in this state. -/
def queueStep (pool : virThreadPool) : QueueOp → Option (virThreadPool × QueueObs)
  | QueueOp.submit env priority data =>
    if FreshAlloc pool.mem env.jobAlloc then
      match virThreadPoolSendJob env pool priority data with
      | some (0, pool1, _) => some (pool1, QueueObs.submitted data)
      | _ => none
    else none
  | QueueOp.takeOrdinary fuel => workerRunsJob fuel false pool
  | QueueOp.takePriority fuel => workerRunsJob fuel true pool

/-- A sequence of queue operations, with what they showed in order. -/
def queueRun (pool : virThreadPool) : List QueueOp → Option (virThreadPool × List QueueObs)
  | [] => some (pool, [])
  | op :: ops =>
    match queueStep pool op with
    | none => none
    | some (pool1, o) =>
      match queueRun pool1 ops with
      | none => none
      | some (pool2, os) => some (pool2, o :: os)

/-- Data of the jobs accepted, in order. -/
def submittedData : List QueueObs → List Nat
  | [] => []
  | QueueObs.submitted d :: os => d :: submittedData os
  | QueueObs.ran _ _ :: os => submittedData os

/-- Data the job function was called on, in order. -/
def ranData : List QueueObs → List Nat
  | [] => []
  | QueueObs.submitted _ :: os => ranData os
  | QueueObs.ran _ d :: os => d :: ranData os

/-! ## The queue as a sequence -/

/-- Doubly linked segment: following `next` from `p` visits exactly the
addresses of `l` and then reaches `nxt`; each record points back at the one
before it, the first at `prev`; `last` is the address visited last (`prev`
when `l` is empty). -/
def dlseg (mem : JobMem) : Nat → Nat → Nat → Nat → List Nat → Prop
  | p, prev, nxt, last, [] => p = nxt ∧ last = prev
  | p, prev, nxt, last, a :: l =>
    p = a ∧ a ≠ 0 ∧ ∃ j, mem a = some j ∧ j.prev = prev ∧ dlseg mem j.next a nxt last l

/-- The pending jobs of the pool are the records at the addresses `l`, in
this order: `head` and `tail` delimit a well-formed doubly linked list over
distinct addresses that fit a pointer. -/
def IsQueue (pool : virThreadPool) (l : List Nat) : Prop :=
  dlseg pool.mem pool.jobList.head 0 0 pool.jobList.tail l ∧ l.Nodup ∧ ∀ a ∈ l, a < SIZE_MOD

/-- Priority of the record at an address (`0` if there is none). -/
def prioAt (mem : JobMem) (a : Nat) : Nat :=
  match mem a with
  | some j => j.priority
  | none => 0

/-- Data of the record at an address (`0` if there is none). -/
def dataAt (mem : JobMem) (a : Nat) : Nat :=
  match mem a with
  | some j => j.data
  | none => 0

/-- The pending jobs as (priority, data) pairs. -/
def jobsOf (mem : JobMem) (l : List Nat) : List (Nat × Nat) :=
  l.map (fun a => (prioAt mem a, dataAt mem a))

/-- Address of the oldest job with a priority above zero, `0` if there is
none. -/
def oldestPrio (mem : JobMem) : List Nat → Nat
  | [] => 0
  | a :: l => if prioAt mem a ≠ 0 then a else oldestPrio mem l

/-- The invariants of the job queue: the list is well formed,
`jobQueueDepth` is its length and `firstPrio` is its oldest job with a
priority above zero. -/
def WellFormed (pool : virThreadPool) (l : List Nat) : Prop :=
  IsQueue pool l ∧ pool.jobQueueDepth = l.length ∧
    pool.jobList.firstPrio = oldestPrio pool.mem l

/-- Data of the pending jobs, oldest first. -/
def pendingData (pool : virThreadPool) (l : List Nat) : List Nat :=
  l.map (dataAt pool.mem)

/-- A queue operation that is not a removal by a priority worker. -/
def QueueOp.isOrdinary : QueueOp → Bool
  | QueueOp.submit _ _ _ => true
  | QueueOp.takeOrdinary _ => true
  | QueueOp.takePriority _ => false

/-! ## Concrete environments and pools -/

/-- The environment of an expansion in which the array grows and every
spawn succeeds. -/
def okExpandEnv : ExpandEnv := ⟨true, fun _ => SpawnOutcome.started⟩

/-- The environment of a submission in which everything succeeds and
`VIR_ALLOC(job)` returns the address `a`. -/
def okSendEnv (a : Nat) : SendEnv := ⟨okExpandEnv, some a⟩

/-- The environment of a construction in which everything succeeds. -/
def okNewEnv : NewEnv := ⟨true, true, true, true, true, okExpandEnv, okExpandEnv⟩

/-- A pool with one ordinary and one priority worker whose queue holds the
jobs (priority 0, data 65), (0, 66), (1, 67), at the addresses 1, 2, 3. -/
def examplePool : virThreadPool :=
  { quit := false, jobList := ⟨1, 3, 3⟩, jobQueueDepth := 3, maxWorkers := 1,
    minWorkers := 0, freeWorkers := 0, nWorkers := 1, nPrioWorkers := 1,
    mem := fun a =>
      if a = 1 then some ⟨0, 2, 0, 65⟩
      else if a = 2 then some ⟨1, 3, 0, 66⟩
      else if a = 3 then some ⟨2, 0, 1, 67⟩
      else none }

/-- The three submissions that build the queue of `examplePool`. -/
def exampleSubmits : List QueueOp :=
  [QueueOp.submit (okSendEnv 1) 0 65, QueueOp.submit (okSendEnv 2) 0 66,
   QueueOp.submit (okSendEnv 3) 1 67]

/-- The pool a run of queue operations ends in (the pool it started from if
the run cannot happen). -/
def queueRunPool (pool : virThreadPool) (ops : List QueueOp) : virThreadPool :=
  match queueRun pool ops with
  | some (pool2, _) => pool2
  | none => pool

/-- What a run of queue operations showed (nothing if the run cannot
happen). -/
def queueRunObs (pool : virThreadPool) (ops : List QueueOp) : List QueueObs :=
  match queueRun pool ops with
  | some (_, obs) => obs
  | none => []

/-- An interleaving of three submissions and two ordinary removals; the
third submission gets the address the first removal freed. -/
def exampleInterleaving : List QueueOp :=
  [QueueOp.submit (okSendEnv 1) 0 65, QueueOp.submit (okSendEnv 2) 0 66,
   QueueOp.takeOrdinary 0, QueueOp.submit (okSendEnv 1) 0 67, QueueOp.takeOrdinary 0]

/-- The pending jobs with a priority above zero, oldest first. -/
def prioJobs (mem : JobMem) (l : List Nat) : List Nat :=
  l.filter (fun a => decide (prioAt mem a ≠ 0))

/-- The pending jobs with priority zero, oldest first. -/
def plainJobs (mem : JobMem) (l : List Nat) : List Nat :=
  l.filter (fun a => decide (prioAt mem a = 0))

/-- A worker event whose condition wait fails. -/
def PoolEvent.condWaitFails : PoolEvent → Bool
  | PoolEvent.sendJob _ _ _ => false
  | PoolEvent.worker _ _ condWaitOk => !condWaitOk
  | PoolEvent.free => false

/-- The pool and threads a construction gives (an empty pool without
threads where the constructor returns `NULL`). -/
def newFullSys (env : NewEnv) (minWorkers maxWorkers prioWorkers : Nat) : Sys :=
  match virThreadPoolNewFull env minWorkers maxWorkers prioWorkers with
  | some s => s
  | none => ⟨zeroPool, []⟩

/-- The state a sequence of events ends in (the state it started from if
the sequence cannot happen). -/
def sysRunState (s : Sys) (events : List PoolEvent) : Sys :=
  match sysRun s events with
  | some s2 => s2
  | none => s

/-- Number of live ordinary workers. -/
def ordinaryWorkers (workers : List Worker) : Nat :=
  workers.countP (fun w => !w.priority)

/-- The worker counter invariant: `nWorkers` counts the live ordinary
workers and is at most `maxWorkers`, which fits a `size_t`. -/
def CountersOk (s : Sys) : Prop :=
  ordinaryWorkers s.workers = s.pool.nWorkers ∧ s.pool.nWorkers ≤ s.pool.maxWorkers ∧
    s.pool.maxWorkers < SIZE_MOD

/-- The environment of an expansion in which the array does not grow. -/
def noGrowEnv : ExpandEnv := ⟨false, fun _ => SpawnOutcome.started⟩

/-- Events on the pool of `virThreadPoolNewFull(3, 2, 1, ...)`: two
submissions, then the first ordinary worker takes a job, `quit` is set, and
the second ordinary worker finds `quit` set and leaves. -/
def exampleEvents : List PoolEvent :=
  [PoolEvent.sendJob (okSendEnv 1) 0 65, PoolEvent.sendJob (okSendEnv 2) 1 66,
   PoolEvent.worker 0 2 true, PoolEvent.free, PoolEvent.worker 1 2 true]

/-- Events without `quit`: a submission, then the first ordinary worker
takes the job and the second goes to wait. -/
def exampleRunningEvents : List PoolEvent :=
  [PoolEvent.sendJob (okSendEnv 1) 0 65, PoolEvent.worker 0 2 true,
   PoolEvent.worker 1 2 true]

/-- Events on the pool of `virThreadPoolNewFull(1, 1, 0, ...)`: its one
worker goes to wait, and the wait fails. -/
def exampleWaitFailure : List PoolEvent :=
  [PoolEvent.worker 0 0 true, PoolEvent.worker 0 0 false]

/-- The pool of `virThreadPoolNewFull(0, 2, 0, ...)` after one submission
that no worker has taken yet: one job pending, one worker, none of them
parked, and room for a second worker. -/
def backlogPool : virThreadPool :=
  (sysRunState (newFullSys okNewEnv 0 2 0) [PoolEvent.sendJob (okSendEnv 1) 0 65]).pool

/-- The environment of an expansion in which the array grows, the spawns
at index 0 and 1 succeed and every later thread creation fails. -/
def failAtTwoEnv : ExpandEnv :=
  ⟨true, fun i => if i < 2 then SpawnOutcome.started else SpawnOutcome.createFailed⟩

end VirThreadPool

/-! # Monitor socket read of `src/acrn/acrn_manager.c` -/

namespace AcrnManager

/-- Number of bytes of `mon->buffer` (`char buffer[1024]`). -/
def BUFFER_SIZE : Nat := 1024

/-- Number of bytes `acrnManagerIORead` asks `read` for. -/
def READ_COUNT : Nat := 1023

/-- Assignment `buffer[idx] = v`: `none` when the index is outside the
array, which is undefined behaviour in C. -/
def bufferStore (buffer : List Nat) (idx : Int) (v : Nat) : Option (List Nat) :=
  if 0 ≤ idx ∧ idx < buffer.length then some (buffer.set idx.toNat v) else none

/-- What `acrnManagerIORead` leaves: the value it returns, the index at
which it wrote the terminating NUL, and the buffer afterwards (`none` if that
write fell outside the buffer). -/
structure IOReadResult where
  ret : Int
  nulIndex : Int
  buffer : Option (List Nat)
  deriving DecidableEq, Repr

/-- Function `acrnManagerIORead`.  The call `read(mon->fd, mon->buffer, 1023)`
is a parameter: `got` is what it returns (-1 on failure, else the number of
bytes read, at most 1023) and `bytes` are the bytes it put at the start of
the buffer.  The values stay far inside the range of `int`, so `ret += got`
is the plain sum. -/
def acrnManagerIORead (got : Int) (bytes : List Nat) : IOReadResult :=
  let ret0 : Int := 0
  -- memset(mon->buffer, 0x0, 1024)
  let buffer0 : List Nat := List.replicate BUFFER_SIZE 0
  -- got = read(mon->fd, mon->buffer, 1023)
  let buffer1 : List Nat :=
    if got < 0 then buffer0 else bytes ++ buffer0.drop bytes.length
  -- if (got < 0) { ...; ret = -1; }
  let ret1 : Int := if got < 0 then -1 else ret0
  -- ret += got
  let ret2 : Int := ret1 + got
  -- mon->buffer[got] = 0
  { ret := ret2, nulIndex := got, buffer := bufferStore buffer1 got 0 }

/-- The results `read` can give when asked for 1023 bytes: -1, or a count
`got` of at most 1023 with that many bytes. -/
def ReadOutcome (got : Int) (bytes : List Nat) : Prop :=
  (got = -1 ∧ bytes = []) ∨ (0 ≤ got ∧ got ≤ READ_COUNT ∧ (bytes.length : Int) = got)


end AcrnManager

namespace VirThreadPool

/-- Two pools that agree on everything but the two worker counters. -/
def SameButCounters (pool pool1 : virThreadPool) : Prop :=
  pool1.quit = pool.quit ∧ pool1.jobList = pool.jobList ∧
    pool1.jobQueueDepth = pool.jobQueueDepth ∧ pool1.maxWorkers = pool.maxWorkers ∧
    pool1.minWorkers = pool.minWorkers ∧ pool1.freeWorkers = pool.freeWorkers ∧
    pool1.mem = pool.mem


/-! ## Heap lemmas -/

theorem store_same (mem : JobMem) (a : Nat) (v : virThreadPoolJob) : store mem a v a = some v := by
  simp [store]

theorem store_other (mem : JobMem) (a b : Nat) (v : virThreadPoolJob) (h : b ≠ a) :
    store mem a v b = mem b := by
  simp [store, h]

theorem release_same (mem : JobMem) (a : Nat) : release mem a a = none := by
  simp [release]

theorem release_other (mem : JobMem) (a b : Nat) (h : b ≠ a) : release mem a b = mem b := by
  simp [release, h]

theorem load_of_ne_zero (mem : JobMem) (p : Nat) (h : p ≠ 0) : load mem p = mem p := by
  simp [load, h]

/-! ## Doubly linked segments -/

theorem dlseg_nil (mem : JobMem) (p prev nxt last : Nat) :
    dlseg mem p prev nxt last [] ↔ p = nxt ∧ last = prev := by
  simp [dlseg]

theorem dlseg_cons (mem : JobMem) (p prev nxt last a : Nat) (l : List Nat) :
    dlseg mem p prev nxt last (a :: l) ↔
      p = a ∧ a ≠ 0 ∧ ∃ j, mem a = some j ∧ j.prev = prev ∧ dlseg mem j.next a nxt last l := by
  simp [dlseg]

/-- Every address of a segment holds a record and is not `NULL`. -/
theorem dlseg_mem_alloc (mem : JobMem) (l : List Nat) :
    ∀ p prev nxt last, dlseg mem p prev nxt last l → ∀ a ∈ l, a ≠ 0 ∧ ∃ j, mem a = some j := by
  induction l with
  | nil => intro p prev nxt last _ a ha; cases ha
  | cons b l ih =>
    intro p prev nxt last h a ha
    rw [dlseg_cons] at h
    obtain ⟨_, hb0, j, hj, _, hrest⟩ := h
    rcases List.mem_cons.1 ha with rfl | ha
    · exact ⟨hb0, j, hj⟩
    · exact ih _ _ _ _ hrest a ha

/-- A segment only depends on the records at its own addresses. -/
theorem dlseg_congr (mem mem2 : JobMem) (l : List Nat) :
    ∀ p prev nxt last, (∀ a ∈ l, mem2 a = mem a) →
      dlseg mem p prev nxt last l → dlseg mem2 p prev nxt last l := by
  induction l with
  | nil => intro p prev nxt last _ h; simpa [dlseg] using h
  | cons b l ih =>
    intro p prev nxt last hsame h
    rw [dlseg_cons] at h ⊢
    obtain ⟨hp, hb0, j, hj, hjp, hrest⟩ := h
    refine ⟨hp, hb0, j, ?_, hjp, ?_⟩
    · rw [hsame b (List.mem_cons_self _ _)]; exact hj
    · exact ih _ _ _ _ (fun a ha => hsame a (List.mem_cons_of_mem _ ha)) hrest

theorem dlseg_store_frame (mem : JobMem) (l : List Nat) (x : Nat) (v : virThreadPoolJob)
    (p prev nxt last : Nat) (hx : x ∉ l) (h : dlseg mem p prev nxt last l) :
    dlseg (store mem x v) p prev nxt last l := by
  refine dlseg_congr mem _ l _ _ _ _ ?_ h
  intro a ha
  exact store_other mem x a v (fun e => hx (e ▸ ha))

theorem dlseg_release_frame (mem : JobMem) (l : List Nat) (x : Nat)
    (p prev nxt last : Nat) (hx : x ∉ l) (h : dlseg mem p prev nxt last l) :
    dlseg (release mem x) p prev nxt last l := by
  refine dlseg_congr mem _ l _ _ _ _ ?_ h
  intro a ha
  exact release_other mem x a (fun e => hx (e ▸ ha))

/-- A segment over `l1 ++ l2` is a segment over `l1` followed by one over
`l2`. -/
theorem dlseg_append (mem : JobMem) (l1 l2 : List Nat) :
    ∀ p prev nxt last, dlseg mem p prev nxt last (l1 ++ l2) ↔
      ∃ mid midlast, dlseg mem p prev mid midlast l1 ∧ dlseg mem mid midlast nxt last l2 := by
  induction l1 with
  | nil =>
    intro p prev nxt last
    constructor
    · intro h; exact ⟨p, prev, by simp [dlseg], by simpa using h⟩
    · rintro ⟨mid, midlast, h1, h2⟩
      rw [dlseg_nil] at h1
      obtain ⟨rfl, rfl⟩ := h1
      simpa using h2
  | cons b l ih =>
    intro p prev nxt last
    rw [List.cons_append, dlseg_cons]
    constructor
    · rintro ⟨hp, hb0, j, hj, hjp, hrest⟩
      obtain ⟨mid, midlast, h1, h2⟩ := (ih _ _ _ _).1 hrest
      exact ⟨mid, midlast, (dlseg_cons _ _ _ _ _ _ _).2 ⟨hp, hb0, j, hj, hjp, h1⟩, h2⟩
    · rintro ⟨mid, midlast, h1, h2⟩
      rw [dlseg_cons] at h1
      obtain ⟨hp, hb0, j, hj, hjp, h1⟩ := h1
      exact ⟨hp, hb0, j, hj, hjp, (ih _ _ _ _).2 ⟨mid, midlast, h1, h2⟩⟩

/-- Shape of a segment that ends in the address `b`. -/
theorem dlseg_snoc (mem : JobMem) (l : List Nat) (b p prev nxt last : Nat) :
    dlseg mem p prev nxt last (l ++ [b]) ↔
      ∃ midlast j, dlseg mem p prev b midlast l ∧ b ≠ 0 ∧ mem b = some j ∧
        j.prev = midlast ∧ j.next = nxt ∧ last = b := by
  rw [dlseg_append]
  constructor
  · rintro ⟨mid, midlast, h1, h2⟩
    rw [dlseg_cons] at h2
    obtain ⟨rfl, hb0, j, hj, hjp, h3⟩ := h2
    rw [dlseg_nil] at h3
    exact ⟨midlast, j, h1, hb0, hj, hjp, h3.1, h3.2⟩
  · rintro ⟨midlast, j, h1, hb0, hj, hjp, hjn, hl⟩
    exact ⟨b, midlast, h1, (dlseg_cons _ _ _ _ _ _ _).2 ⟨rfl, hb0, j, hj, hjp, by simp [dlseg, hjn, hl]⟩⟩

/-- The `last` of a segment is `prev` exactly when the segment is empty
(`prev` itself not being one of its addresses). -/
theorem dlseg_last_mem (mem : JobMem) (l : List Nat) :
    ∀ p prev nxt last, dlseg mem p prev nxt last l → l ≠ [] → last ∈ l := by
  induction l with
  | nil => intro p prev nxt last _ h; exact absurd rfl h
  | cons b l ih =>
    intro p prev nxt last h _
    rw [dlseg_cons] at h
    obtain ⟨_, _, j, _, _, hrest⟩ := h
    cases l with
    | nil =>
      rw [dlseg_nil] at hrest
      simp [hrest.2]
    | cons c l =>
      exact List.mem_cons_of_mem _ (ih _ _ _ _ hrest (by simp))

/-- Distinct non-null addresses that fit a pointer are fewer than
`SIZE_MOD`. -/
theorem length_lt_size (l : List Nat) (hnd : l.Nodup)
    (hb : ∀ a ∈ l, a ≠ 0 ∧ a < SIZE_MOD) : l.length < SIZE_MOD := by
  have hsub : l.toFinset ⊆ Finset.Ico 1 SIZE_MOD := by
    intro a ha
    have := hb a (List.mem_toFinset.1 ha)
    exact Finset.mem_Ico.2 ⟨Nat.pos_of_ne_zero this.1, this.2⟩
  have hcard := Finset.card_le_card hsub
  rw [List.toFinset_card_of_nodup hnd, Nat.card_Ico] at hcard
  have : 0 < SIZE_MOD := by unfold SIZE_MOD; positivity
  omega

theorem sizeAdd_of_lt (a b : Nat) (h : a + b < SIZE_MOD) : sizeAdd a b = a + b := by
  unfold sizeAdd; exact Nat.mod_eq_of_lt h

theorem sizeSub_of_le (a b : Nat) (hb : b ≤ a) (ha : a < SIZE_MOD) : sizeSub a b = a - b := by
  unfold sizeSub
  have hb2 : b % SIZE_MOD = b := Nat.mod_eq_of_lt (by omega)
  rw [hb2]
  have : a + (SIZE_MOD - b) = (a - b) + SIZE_MOD := by omega
  rw [this, Nat.add_mod_right]
  exact Nat.mod_eq_of_lt (by omega)

/-! ## Payloads -/

theorem prioAt_store_next (mem : JobMem) (a x n : Nat) (j : virThreadPoolJob)
    (hj : mem a = some j) : prioAt (store mem a { j with next := n }) x = prioAt mem x := by
  unfold prioAt store
  by_cases h : x = a
  · subst h; simp [hj]
  · simp [h]

theorem dataAt_store_next (mem : JobMem) (a x n : Nat) (j : virThreadPoolJob)
    (hj : mem a = some j) : dataAt (store mem a { j with next := n }) x = dataAt mem x := by
  unfold dataAt store
  by_cases h : x = a
  · subst h; simp [hj]
  · simp [h]

theorem prioAt_store_prev (mem : JobMem) (a x n : Nat) (j : virThreadPoolJob)
    (hj : mem a = some j) : prioAt (store mem a { j with prev := n }) x = prioAt mem x := by
  unfold prioAt store
  by_cases h : x = a
  · subst h; simp [hj]
  · simp [h]

theorem dataAt_store_prev (mem : JobMem) (a x n : Nat) (j : virThreadPoolJob)
    (hj : mem a = some j) : dataAt (store mem a { j with prev := n }) x = dataAt mem x := by
  unfold dataAt store
  by_cases h : x = a
  · subst h; simp [hj]
  · simp [h]

theorem jobsOf_congr (mem mem2 : JobMem) (l : List Nat)
    (h : ∀ a ∈ l, prioAt mem2 a = prioAt mem a ∧ dataAt mem2 a = dataAt mem a) :
    jobsOf mem2 l = jobsOf mem l := by
  unfold jobsOf
  apply List.map_congr_left
  intro a ha
  rw [(h a ha).1, (h a ha).2]

theorem oldestPrio_congr (mem mem2 : JobMem) (l : List Nat)
    (h : ∀ a ∈ l, prioAt mem2 a = prioAt mem a) : oldestPrio mem2 l = oldestPrio mem l := by
  induction l with
  | nil => rfl
  | cons b l ih =>
    simp only [oldestPrio]
    rw [h b (List.mem_cons_self _ _), ih (fun a ha => h a (List.mem_cons_of_mem _ ha))]

/-! ## virThreadPoolExpand leaves the queue alone -/

theorem setCurWorkers_same (pool : virThreadPool) (priority : Bool) (n : Nat) :
    SameButCounters pool (setCurWorkers pool priority n) := by
  unfold setCurWorkers SameButCounters
  cases priority <;> simp

theorem SameButCounters.trans {a b c : virThreadPool} (h1 : SameButCounters a b)
    (h2 : SameButCounters b c) : SameButCounters a c := by
  unfold SameButCounters at *
  obtain ⟨a1, a2, a3, a4, a5, a6, a7⟩ := h1
  obtain ⟨b1, b2, b3, b4, b5, b6, b7⟩ := h2
  exact ⟨b1.trans a1, b2.trans a2, b3.trans a3, b4.trans a4, b5.trans a5, b6.trans a6,
    b7.trans a7⟩

theorem expand_same (env : ExpandEnv) (pool : virThreadPool) (gain : Nat) (priority : Bool) :
    SameButCounters pool (virThreadPoolExpand env pool gain priority).2.1 := by
  unfold virThreadPoolExpand
  by_cases hg : env.growOk = false
  · simp [hg, SameButCounters]
  · simp only [hg, if_false]
    rcases h : expandLoop env.spawn gain 0 with ⟨i, b⟩
    cases b
    · exact (setCurWorkers_same pool priority _).trans (setCurWorkers_same _ priority _)
    · exact setCurWorkers_same pool priority _

theorem sendJobExpand_same (env : ExpandEnv) (pool : virThreadPool) :
    SameButCounters pool (sendJobExpand env pool).2.1 := by
  unfold sendJobExpand
  split
  · exact expand_same _ _ _ _
  · simp [SameButCounters]

/-- A submission that returns `0` has enqueued into the pool left by the
expansion step, at the address `VIR_ALLOC(job)` gave. -/
theorem sendJob_inv (env : SendEnv) (pool : virThreadPool) (priority data : Nat)
    (pool2 : virThreadPool) (started : Nat) (hq : pool.quit = false)
    (h : virThreadPoolSendJob env pool priority data = some (0, pool2, started)) :
    ∃ job, env.jobAlloc = some job ∧
      enqueueJob (sendJobExpand env.expand pool).2.1 job priority data = some pool2 := by
  unfold virThreadPoolSendJob at h
  simp only [hq, Bool.false_eq_true, if_false] at h
  rcases hr : sendJobExpand env.expand pool with ⟨ret, pool1, st⟩
  rw [hr] at h
  simp only at h
  split at h
  · simp at h
  · split at h
    · simp at h
    · rename_i job hjob
      split at h
      · simp at h
      · rename_i p2 hp2
        simp only [Option.some.injEq, Prod.mk.injEq, true_and] at h
        exact ⟨job, hjob, by rw [hp2, h.1]⟩

/-- An empty queue has `head` and `tail` both `NULL`, a non-empty one has
its last address in `tail`, with no successor. -/
theorem isQueue_tail (pool : virThreadPool) (l : List Nat) (h : IsQueue pool l) :
    (l = [] ∧ pool.jobList.head = 0 ∧ pool.jobList.tail = 0) ∨
    (∃ l0 j midlast, l = l0 ++ [pool.jobList.tail] ∧ pool.jobList.tail ≠ 0 ∧
      pool.jobList.head ≠ 0 ∧
      pool.mem pool.jobList.tail = some j ∧ j.next = 0 ∧ j.prev = midlast ∧
      dlseg pool.mem pool.jobList.head 0 pool.jobList.tail midlast l0) := by
  obtain ⟨hseg, _, _⟩ := h
  rcases List.eq_nil_or_concat l with rfl | ⟨l0, b, hlb⟩
  · left
    rw [dlseg_nil] at hseg
    exact ⟨rfl, hseg.1, hseg.2⟩
  · right
    rw [List.concat_eq_append] at hlb
    subst hlb
    have hseg2 := hseg
    rw [dlseg_snoc] at hseg
    obtain ⟨midlast, j, h1, hb0, hj, hjp, hjn, hlast⟩ := hseg
    refine ⟨l0, j, midlast, by rw [hlast], by rw [hlast]; exact hb0, ?_, by rw [hlast]; exact hj,
      hjn, hjp, by rw [hlast]; exact h1⟩
    cases l0 with
    | nil =>
      simp only [List.nil_append] at hseg2
      rw [dlseg_cons] at hseg2
      rw [hseg2.1]; exact hb0
    | cons c l0 =>
      rw [List.cons_append, dlseg_cons] at hseg2
      rw [hseg2.1]; exact hseg2.2.1

/-- Effect of lines 323-337 on a well-formed queue: the new record goes
to the end, the records before it keep their order and their payload. -/
theorem enqueueJob_spec (pool : virThreadPool) (l : List Nat) (job priority data : Nat)
    (hl : IsQueue pool l) (hj0 : job ≠ 0) (hjb : job < SIZE_MOD) (hjm : pool.mem job = none) :
    ∃ pool2, enqueueJob pool job priority data = some pool2 ∧
      IsQueue pool2 (l ++ [job]) ∧
      jobsOf pool2.mem (l ++ [job]) = jobsOf pool.mem l ++ [(priority, data)] ∧
      (∀ a, a ∈ l → prioAt pool2.mem a = prioAt pool.mem a ∧ dataAt pool2.mem a = dataAt pool.mem a) ∧
      prioAt pool2.mem job = priority ∧ dataAt pool2.mem job = data ∧
      (∀ a, a ∉ l → a ≠ job → pool2.mem a = pool.mem a) ∧
      pool2.jobQueueDepth = sizeAdd pool.jobQueueDepth 1 ∧
      pool2.jobList.firstPrio =
        (if priority ≠ 0 ∧ pool.jobList.firstPrio = 0 then job else pool.jobList.firstPrio) ∧
      pool2.jobList.tail = job ∧
      pool2.quit = pool.quit ∧ pool2.nWorkers = pool.nWorkers ∧
      pool2.nPrioWorkers = pool.nPrioWorkers ∧ pool2.maxWorkers = pool.maxWorkers ∧
      pool2.minWorkers = pool.minWorkers ∧ pool2.freeWorkers = pool.freeWorkers := by
  have hnotin : job ∉ l := by
    intro hin
    obtain ⟨_, j, hj⟩ := dlseg_mem_alloc _ _ _ _ _ _ hl.1 job hin
    rw [hjm] at hj; cases hj
  have hnd : (l ++ [job]).Nodup := by
    rw [List.nodup_append]
    refine ⟨hl.2.1, List.nodup_singleton _, ?_⟩
    intro a ha hb
    rw [List.mem_singleton] at hb
    exact hnotin (hb ▸ ha)
  have hbound : ∀ a ∈ l ++ [job], a < SIZE_MOD := by
    intro a ha
    rcases List.mem_append.1 ha with h | h
    · exact hl.2.2 a h
    · rw [List.mem_singleton] at h; rw [h]; exact hjb
  rcases isQueue_tail pool l hl with ⟨rfl, hhead, htail⟩ | ⟨l0, j, midlast, hl0, ht0, hh0, hjt, hjn, hjp, hseg0⟩
  · -- the queue was empty
    have henq : enqueueJob pool job priority data = some
        { pool with
            jobList := ⟨job, job,
              if priority ≠ 0 ∧ pool.jobList.firstPrio = 0 then job else pool.jobList.firstPrio⟩
            jobQueueDepth := sizeAdd pool.jobQueueDepth 1
            mem := store pool.mem job ⟨pool.jobList.tail, 0, priority, data⟩ } := by
      simp [enqueueJob, htail, hhead]
    refine ⟨_, henq, ⟨?_, hnd, hbound⟩, ?_, ?_, ?_, ?_, ?_, rfl, rfl, rfl,
      rfl, rfl, rfl, rfl, rfl, rfl⟩
    · simp only [List.nil_append]
      rw [dlseg_cons]
      exact ⟨rfl, hj0, _, store_same _ _ _, htail, by simp [dlseg]⟩
    · simp [jobsOf, prioAt, dataAt, store_same]
    · intro a ha; cases ha
    · simp [prioAt, store_same]
    · simp [dataAt, store_same]
    · intro a _ ha; exact store_other _ _ _ _ ha
  · -- the queue had a last record, at `tail`
    have htj : pool.jobList.tail ≠ job := by
      intro e; rw [e, hjm] at hjt; cases hjt
    have htl0 : pool.jobList.tail ∉ l0 := by
      have := hl.2.1
      rw [hl0, List.nodup_append] at this
      intro hin
      exact this.2.2 hin (List.mem_singleton_self _)
    have hjl0 : job ∉ l0 := by
      intro hin; exact hnotin (by rw [hl0]; exact List.mem_append_left _ hin)
    have hload : load (store pool.mem job ⟨pool.jobList.tail, 0, priority, data⟩)
        pool.jobList.tail = some j := by
      rw [load_of_ne_zero _ _ ht0, store_other _ _ _ _ htj, hjt]
    have henq : enqueueJob pool job priority data = some
        { pool with
            jobList := ⟨pool.jobList.head, job,
              if priority ≠ 0 ∧ pool.jobList.firstPrio = 0 then job else pool.jobList.firstPrio⟩
            jobQueueDepth := sizeAdd pool.jobQueueDepth 1
            mem := store (store pool.mem job ⟨pool.jobList.tail, 0, priority, data⟩)
              pool.jobList.tail { j with next := job } } := by
      simp [enqueueJob, ht0, hload, hh0]
    have hpay : ∀ a, a ∈ l →
        prioAt (store (store pool.mem job ⟨pool.jobList.tail, 0, priority, data⟩)
              pool.jobList.tail { j with next := job }) a = prioAt pool.mem a ∧
        dataAt (store (store pool.mem job ⟨pool.jobList.tail, 0, priority, data⟩)
              pool.jobList.tail { j with next := job }) a = dataAt pool.mem a := by
      intro a ha
      have haj : a ≠ job := fun e => hnotin (e ▸ ha)
      have hm1 : store pool.mem job ⟨pool.jobList.tail, 0, priority, data⟩ pool.jobList.tail
          = some j := by rw [store_other _ _ _ _ htj, hjt]
      rw [prioAt_store_next _ _ _ _ _ hm1, dataAt_store_next _ _ _ _ _ hm1]
      simp [prioAt, dataAt, store_other _ _ _ _ haj]
    have hnew : store (store pool.mem job ⟨pool.jobList.tail, 0, priority, data⟩)
              pool.jobList.tail { j with next := job } job
          = some ⟨pool.jobList.tail, 0, priority, data⟩ := by
      rw [store_other _ _ _ _ (Ne.symm htj), store_same]
    refine ⟨_, henq, ⟨?_, hnd, hbound⟩, ?_, hpay, ?_, ?_, ?_, rfl, rfl, rfl, rfl, rfl, rfl, rfl,
      rfl, rfl⟩
    · show dlseg _ pool.jobList.head 0 0 job (l ++ [job])
      rw [dlseg_snoc]
      refine ⟨pool.jobList.tail, _, ?_, hj0, hnew, rfl, rfl, rfl⟩
      rw [hl0, dlseg_snoc]
      refine ⟨midlast, _, ?_, ht0, store_same _ _ _, hjp, rfl, rfl⟩
      exact dlseg_store_frame _ _ _ _ _ _ _ _ htl0 (dlseg_store_frame _ _ _ _ _ _ _ _ hjl0 hseg0)
    · show jobsOf _ (l ++ [job]) = _
      unfold jobsOf
      rw [List.map_append]
      congr 1
      · apply List.map_congr_left
        intro a ha
        rw [(hpay a ha).1, (hpay a ha).2]
      · simp [prioAt, dataAt, hnew]
    · simp [prioAt, hnew]
    · simp [dataAt, hnew]
    · intro a ha haj
      have hat : a ≠ pool.jobList.tail := by
        intro e; apply ha; rw [hl0, e]; simp
      show store _ _ _ a = _
      rw [store_other _ _ _ _ hat, store_other _ _ _ _ haj]

/-! ## Taking a job out of the queue -/

theorem prioAt_of (mem : JobMem) (a : Nat) (j : virThreadPoolJob) (h : mem a = some j) :
    prioAt mem a = j.priority := by
  simp [prioAt, h]

theorem dataAt_of (mem : JobMem) (a : Nat) (j : virThreadPoolJob) (h : mem a = some j) :
    dataAt mem a = j.data := by
  simp [dataAt, h]

/-- The scan for the next job with a priority finds the oldest such job of
the segment it runs over, given one unit of fuel for each record. -/
theorem scanPrio_spec (mem : JobMem) (l : List Nat) :
    ∀ p prev last fuel, dlseg mem p prev 0 last l → l.length ≤ fuel →
      scanPrio mem fuel p = some (oldestPrio mem l) := by
  induction l with
  | nil =>
    intro p prev last fuel h _
    rw [dlseg_nil] at h
    rw [h.1]
    cases fuel <;> simp [scanPrio, oldestPrio]
  | cons a l ih =>
    intro p prev last fuel h hfuel
    rw [dlseg_cons] at h
    obtain ⟨rfl, ha0, j, hj, _, hrest⟩ := h
    cases fuel with
    | zero => simp at hfuel
    | succ fuel =>
      simp only [List.length_cons, Nat.add_le_add_iff_right] at hfuel
      simp only [scanPrio, ha0, if_false, hj, oldestPrio, prioAt_of _ _ _ hj]
      by_cases hp : j.priority ≠ 0
      · simp [hp]
      · simp only [hp, if_false]
        exact ih _ _ _ _ hrest hfuel

/-- Lines 133-136 on the records before the job taken: the last of them
gets the successor `nxt2`, or, if there is none, `head` does. -/
theorem unlink_prev_spec (mem : JobMem) (l : List Nat) (p nxt last nxt2 : Nat)
    (h : dlseg mem p 0 nxt last l) (hnd : l.Nodup) :
    ∃ mem1 p1,
      (if last ≠ 0 then
          (load mem last).map (fun r => (store mem last { r with next := nxt2 }, p))
        else some (mem, nxt2)) = some (mem1, p1) ∧
      dlseg mem1 p1 0 nxt2 last l ∧ (∀ a, a ∉ l → mem1 a = mem a) ∧
      (∀ a, prioAt mem1 a = prioAt mem a ∧ dataAt mem1 a = dataAt mem a) := by
  rcases List.eq_nil_or_concat l with rfl | ⟨l0, b, hlb⟩
  · rw [dlseg_nil] at h
    refine ⟨mem, nxt2, by simp [h.2], by simp [dlseg, h.2], fun _ _ => rfl, fun _ => ⟨rfl, rfl⟩⟩
  · rw [List.concat_eq_append] at hlb
    subst hlb
    rw [dlseg_snoc] at h
    obtain ⟨midlast, j, h1, hb0, hj, hjp, _, hlast⟩ := h
    subst hlast
    have hbl0 : last ∉ l0 := by
      rw [List.nodup_append] at hnd
      intro hin; exact hnd.2.2 hin (List.mem_singleton_self _)
    refine ⟨store mem last { j with next := nxt2 }, p, by simp [hb0, load, hj], ?_, ?_, ?_⟩
    · rw [dlseg_snoc]
      exact ⟨midlast, _, dlseg_store_frame _ _ _ _ _ _ _ _ hbl0 h1, hb0, store_same _ _ _, hjp,
        rfl, rfl⟩
    · intro a ha
      exact store_other _ _ _ _ (fun e => ha (by simp [e]))
    · intro a
      exact ⟨prioAt_store_next _ _ _ _ _ hj, dataAt_store_next _ _ _ _ _ hj⟩

/-- Lines 137-140 on the records after the job taken: the first of them
gets the predecessor `prev2`, or, if there is none, `tail` does. -/
theorem unlink_next_spec (mem : JobMem) (l : List Nat) (p prev last prev2 : Nat)
    (h : dlseg mem p prev 0 last l) (hnd : l.Nodup) :
    ∃ mem2 last2,
      (if p ≠ 0 then
          (load mem p).map (fun r => (store mem p { r with prev := prev2 }, last))
        else some (mem, prev2)) = some (mem2, last2) ∧
      dlseg mem2 p prev2 0 last2 l ∧ (∀ a, a ∉ l → mem2 a = mem a) ∧
      (∀ a, prioAt mem2 a = prioAt mem a ∧ dataAt mem2 a = dataAt mem a) := by
  cases l with
  | nil =>
    rw [dlseg_nil] at h
    refine ⟨mem, prev2, by simp [h.1], by simp [dlseg, h.1], fun _ _ => rfl, fun _ => ⟨rfl, rfl⟩⟩
  | cons b l0 =>
    rw [dlseg_cons] at h
    obtain ⟨rfl, hb0, j, hj, _, hrest⟩ := h
    have hbl0 : p ∉ l0 := (List.nodup_cons.1 hnd).1
    refine ⟨store mem p { j with prev := prev2 }, last, by simp [hb0, load, hj], ?_, ?_, ?_⟩
    · rw [dlseg_cons]
      exact ⟨rfl, hb0, _, store_same _ _ _, rfl, dlseg_store_frame _ _ _ _ _ _ _ _ hbl0 hrest⟩
    · intro a ha
      exact store_other _ _ _ _ (fun e => ha (by simp [e]))
    · intro a
      exact ⟨prioAt_store_prev _ _ _ _ _ hj, dataAt_store_prev _ _ _ _ _ hj⟩

/-- Lines 117-142 on a well-formed queue `pre ++ job :: post` of which the
worker picks `job`: the job is unlinked, the others keep their order and
their payload, and `firstPrio`, if it was the job, moves to the oldest job
with a priority behind it. -/
theorem workerTakeJob_spec (fuel : Nat) (priority : Bool) (pool : virThreadPool)
    (pre post : List Nat) (job : Nat) (hq : IsQueue pool (pre ++ job :: post))
    (hpick : (if priority then pool.jobList.firstPrio else pool.jobList.head) = job)
    (hfuel : post.length ≤ fuel) :
    ∃ pool2, workerTakeJob fuel priority pool = some (job, pool2) ∧
      IsQueue pool2 (pre ++ post) ∧
      (∀ a, a ≠ job → prioAt pool2.mem a = prioAt pool.mem a ∧
        dataAt pool2.mem a = dataAt pool.mem a) ∧
      pool2.mem job = pool.mem job ∧
      (∀ a, a ∉ pre ++ job :: post → pool2.mem a = pool.mem a) ∧
      pool2.jobQueueDepth = sizeSub pool.jobQueueDepth 1 ∧
      pool2.jobList.firstPrio =
        (if job = pool.jobList.firstPrio then oldestPrio pool.mem post
         else pool.jobList.firstPrio) ∧
      pool2.quit = pool.quit ∧ pool2.nWorkers = pool.nWorkers ∧
      pool2.nPrioWorkers = pool.nPrioWorkers ∧ pool2.maxWorkers = pool.maxWorkers ∧
      pool2.minWorkers = pool.minWorkers ∧ pool2.freeWorkers = pool.freeWorkers := by
  obtain ⟨hseg, hnd, hbd⟩ := hq
  rw [dlseg_append] at hseg
  obtain ⟨mid, midlast, hpre, hrest⟩ := hseg
  rw [dlseg_cons] at hrest
  obtain ⟨hmid, hjob0, j, hj, hjprev, hpost⟩ := hrest
  subst hmid
  -- the three parts are disjoint
  have hnd2 := hnd
  rw [List.nodup_append] at hnd2
  obtain ⟨hndpre, hndjp, hdisj⟩ := hnd2
  have hndpost : post.Nodup := (List.nodup_cons.1 hndjp).2
  have hjpost : mid ∉ post := (List.nodup_cons.1 hndjp).1
  have hjpre : mid ∉ pre := fun hin => hdisj hin (List.mem_cons_self _ _)
  have hprepost : ∀ a, a ∈ pre → a ∉ post :=
    fun a ha hp => hdisj ha (List.mem_cons_of_mem _ hp)
  -- the scan
  have hscan : (if mid = pool.jobList.firstPrio then scanPrio pool.mem fuel j.next
      else some pool.jobList.firstPrio) =
      some (if mid = pool.jobList.firstPrio then oldestPrio pool.mem post
        else pool.jobList.firstPrio) := by
    split
    · exact scanPrio_spec _ _ _ _ _ _ hpost hfuel
    · rfl
  -- the records before
  obtain ⟨mem1, head1, hup, hseg1, hframe1, hpay1⟩ :=
    unlink_prev_spec pool.mem pre pool.jobList.head mid midlast j.next hpre hndpre
  have hj1 : mem1 mid = some j := by rw [hframe1 _ hjpre]; exact hj
  have hpost1 : dlseg mem1 j.next mid 0 pool.jobList.tail post :=
    dlseg_congr _ _ _ _ _ _ _ (fun a ha => hframe1 a (fun hp => hprepost a hp ha)) hpost
  -- the records after
  obtain ⟨mem2, tail2, hun, hseg2, hframe2, hpay2⟩ :=
    unlink_next_spec mem1 post j.next mid pool.jobList.tail midlast hpost1 hndpost
  have hpre2 : dlseg mem2 head1 0 j.next midlast pre :=
    dlseg_congr _ _ _ _ _ _ _ (fun a ha => hframe2 a (hprepost a ha)) hseg1
  refine ⟨{ pool with
              jobList := ⟨head1, tail2, if mid = pool.jobList.firstPrio then
                oldestPrio pool.mem post else pool.jobList.firstPrio⟩
              jobQueueDepth := sizeSub pool.jobQueueDepth 1
              mem := mem2 }, ?_, ⟨?_, ?_, ?_⟩, ?_, ?_, ?_, rfl, rfl, rfl, rfl, rfl, rfl, rfl, rfl⟩
  · unfold workerTakeJob
    simp only [hpick, load_of_ne_zero _ _ hjob0, hj, hscan, hjprev, hup, hj1, hun]
  · show dlseg mem2 head1 0 0 tail2 (pre ++ post)
    rw [dlseg_append]
    exact ⟨j.next, midlast, hpre2, hseg2⟩
  · rw [List.nodup_append]
    exact ⟨hndpre, hndpost, fun a ha hp => hprepost a ha hp⟩
  · intro a ha
    apply hbd
    rcases List.mem_append.1 ha with h | h
    · exact List.mem_append_left _ h
    · exact List.mem_append_right _ (List.mem_cons_of_mem _ h)
  · intro a _
    exact ⟨(hpay2 a).1.trans (hpay1 a).1, (hpay2 a).2.trans (hpay1 a).2⟩
  · show mem2 mid = pool.mem mid
    rw [hframe2 _ hjpost, hframe1 _ hjpre]
  · intro a ha
    show mem2 a = pool.mem a
    have hapre : a ∉ pre := fun h => ha (List.mem_append_left _ h)
    have hapost : a ∉ post :=
      fun h => ha (List.mem_append_right _ (List.mem_cons_of_mem _ h))
    rw [hframe2 _ hapost, hframe1 _ hapre]

/-! ## Fuel -/

theorem scanPrio_mono (mem : JobMem) :
    ∀ fuel fuel2 p r, fuel ≤ fuel2 → scanPrio mem fuel p = some r →
      scanPrio mem fuel2 p = some r := by
  intro fuel
  induction fuel with
  | zero =>
    intro fuel2 p r _ h
    by_cases hp : p = 0
    · subst hp
      have hr : r = 0 := by simpa [scanPrio, eq_comm] using h
      subst hr
      cases fuel2 <;> simp [scanPrio]
    · simp [scanPrio, hp] at h
  | succ fuel ih =>
    intro fuel2 p r hle h
    cases fuel2 with
    | zero => omega
    | succ fuel2 =>
      have hle2 : fuel ≤ fuel2 := by omega
      simp only [scanPrio] at h ⊢
      by_cases hp : p = 0
      · rw [if_pos hp] at h ⊢; exact h
      · rw [if_neg hp] at h ⊢
        cases ht : mem p with
        | none => rw [ht] at h; cases h
        | some t =>
          rw [ht] at h
          simp only at h ⊢
          by_cases hpr : t.priority ≠ 0
          · rw [if_pos hpr] at h ⊢; exact h
          · rw [if_neg hpr] at h ⊢; exact ih _ _ _ hle2 h

theorem workerTakeJob_mono (fuel fuel2 : Nat) (priority : Bool) (pool : virThreadPool)
    (r : Nat × virThreadPool) (hle : fuel ≤ fuel2)
    (h : workerTakeJob fuel priority pool = some r) :
    workerTakeJob fuel2 priority pool = some r := by
  unfold workerTakeJob at h ⊢
  simp only at h ⊢
  split at h
  · cases h
  · rename_i j hj
    by_cases hfp : (if priority = true then pool.jobList.firstPrio else pool.jobList.head) =
        pool.jobList.firstPrio
    · simp only [hfp, if_true] at h ⊢
      cases hs : scanPrio pool.mem fuel j.next with
      | none => rw [hs] at h; cases h
      | some x =>
        rw [scanPrio_mono _ _ _ _ _ hle hs]
        rw [hs] at h
        exact h
    · simp only [hfp, if_false] at h ⊢
      exact h

theorem workerLoop_mono (fuel fuel2 : Nat) (priority : Bool) (pool : virThreadPool)
    (r : virThreadPool × Option WorkerPc) (hle : fuel ≤ fuel2)
    (h : workerLoop fuel priority pool = some r) :
    workerLoop fuel2 priority pool = some r := by
  unfold workerLoop at h ⊢
  split at h
  · rename_i hc; rw [if_pos hc]; exact h
  · rename_i hc
    rw [if_neg hc]
    split at h
    · rename_i hq; rw [if_pos hq]; exact h
    · rename_i hq
      rw [if_neg hq]
      cases ht : workerTakeJob fuel priority pool with
      | none => rw [ht] at h; cases h
      | some x =>
        rw [workerTakeJob_mono _ _ _ _ _ hle ht]
        rw [ht] at h
        exact h

theorem workerRunsJob_mono (fuel fuel2 : Nat) (priority : Bool) (pool : virThreadPool)
    (r : virThreadPool × QueueObs) (hle : fuel ≤ fuel2)
    (h : workerRunsJob fuel priority pool = some r) :
    workerRunsJob fuel2 priority pool = some r := by
  unfold workerRunsJob virThreadPoolWorker at h ⊢
  simp only at h ⊢
  cases hw : workerLoop fuel priority pool with
  | none => rw [hw] at h; simp at h
  | some x =>
    rw [workerLoop_mono _ _ _ _ _ hle hw]
    rw [hw] at h
    exact h

/-! ## The oldest job with a priority -/

theorem oldestPrio_split (mem : JobMem) (l : List Nat) (h : oldestPrio mem l ≠ 0) :
    ∃ pre post, l = pre ++ oldestPrio mem l :: post ∧ (∀ a ∈ pre, prioAt mem a = 0) ∧
      prioAt mem (oldestPrio mem l) ≠ 0 := by
  induction l with
  | nil => simp [oldestPrio] at h
  | cons b l ih =>
    by_cases hb : prioAt mem b ≠ 0
    · refine ⟨[], l, ?_, by simp, ?_⟩ <;> simp [oldestPrio, hb]
    · have he : oldestPrio mem (b :: l) = oldestPrio mem l := by simp [oldestPrio, hb]
      rw [he] at h ⊢
      obtain ⟨pre, post, hl, hpre, hp⟩ := ih h
      refine ⟨b :: pre, post, by rw [List.cons_append, ← hl], ?_, hp⟩
      intro a ha
      rcases List.mem_cons.1 ha with rfl | ha
      · simpa using hb
      · exact hpre a ha

theorem oldestPrio_append_zero (mem : JobMem) (pre l : List Nat)
    (h : ∀ a ∈ pre, prioAt mem a = 0) : oldestPrio mem (pre ++ l) = oldestPrio mem l := by
  induction pre with
  | nil => rfl
  | cons b pre ih =>
    have hb : prioAt mem b = 0 := h b (List.mem_cons_self _ _)
    simp only [List.cons_append, oldestPrio, hb, ne_eq, not_true_eq_false, if_false]
    exact ih (fun a ha => h a (List.mem_cons_of_mem _ ha))

theorem oldestPrio_eq_zero_iff (mem : JobMem) (l : List Nat) (h0 : ∀ a ∈ l, a ≠ 0) :
    oldestPrio mem l = 0 ↔ ∀ a ∈ l, prioAt mem a = 0 := by
  induction l with
  | nil => simp [oldestPrio]
  | cons b l ih =>
    have hb0 : b ≠ 0 := h0 b (List.mem_cons_self _ _)
    have ih2 := ih (fun a ha => h0 a (List.mem_cons_of_mem _ ha))
    by_cases hb : prioAt mem b ≠ 0
    · rw [oldestPrio, if_pos hb]
      constructor
      · intro h; exact absurd h hb0
      · intro h; exact absurd (h b (List.mem_cons_self _ _)) hb
    · rw [oldestPrio, if_neg hb, ih2]
      constructor
      · intro h a ha
        rcases List.mem_cons.1 ha with rfl | ha
        · simpa using hb
        · exact h a ha
      · intro h a ha; exact h a (List.mem_cons_of_mem _ ha)

theorem oldestPrio_append (mem : JobMem) (l1 l2 : List Nat) (h0 : ∀ a ∈ l1, a ≠ 0) :
    oldestPrio mem (l1 ++ l2) =
      if oldestPrio mem l1 = 0 then oldestPrio mem l2 else oldestPrio mem l1 := by
  induction l1 with
  | nil => simp [oldestPrio]
  | cons b l ih =>
    have hb0 : b ≠ 0 := h0 b (List.mem_cons_self _ _)
    by_cases hb : prioAt mem b ≠ 0
    · simp [oldestPrio, hb, hb0]
    · simp only [List.cons_append, oldestPrio, hb, if_false]
      exact ih (fun a ha => h0 a (List.mem_cons_of_mem _ ha))

/-! ## The queue invariants under the operations -/

theorem isQueue_nonzero (pool : virThreadPool) (l : List Nat) (h : IsQueue pool l) :
    ∀ a ∈ l, a ≠ 0 :=
  fun a ha => (dlseg_mem_alloc _ _ _ _ _ _ h.1 a ha).1

theorem isQueue_length (pool : virThreadPool) (l : List Nat) (h : IsQueue pool l) :
    l.length < SIZE_MOD :=
  length_lt_size l h.2.1 (fun a ha => ⟨isQueue_nonzero pool l h a ha, h.2.2 a ha⟩)

theorem isQueue_head (pool : virThreadPool) (l : List Nat) (h : IsQueue pool l) :
    (l = [] ∧ pool.jobList.head = 0) ∨
      (∃ rest, l = pool.jobList.head :: rest ∧ pool.jobList.head ≠ 0) := by
  cases l with
  | nil => left; exact ⟨rfl, ((dlseg_nil _ _ _ _ _).1 h.1).1⟩
  | cons a rest =>
    right
    have := (dlseg_cons _ _ _ _ _ _ _).1 h.1
    exact ⟨rest, by rw [this.1], by rw [this.1]; exact this.2.1⟩

theorem isQueue_of_same (pool pool1 : virThreadPool) (l : List Nat)
    (hs : SameButCounters pool pool1) (h : IsQueue pool l) : IsQueue pool1 l := by
  unfold IsQueue at *
  rw [hs.2.1, hs.2.2.2.2.2.2]
  exact h

theorem wellFormed_of_same (pool pool1 : virThreadPool) (l : List Nat)
    (hs : SameButCounters pool pool1) (h : WellFormed pool l) : WellFormed pool1 l := by
  refine ⟨isQueue_of_same _ _ _ hs h.1, ?_, ?_⟩
  · rw [hs.2.2.1]; exact h.2.1
  · rw [hs.2.1, hs.2.2.2.2.2.2]; exact h.2.2

/-- A submission that returns `0` keeps the queue invariants and puts the
new job last. -/
theorem wellFormed_sendJob (env : SendEnv) (pool : virThreadPool) (priority data : Nat)
    (l : List Nat) (pool2 : virThreadPool) (started : Nat) (hwf : WellFormed pool l)
    (hq : pool.quit = false) (hfresh : FreshAlloc pool.mem env.jobAlloc)
    (h : virThreadPoolSendJob env pool priority data = some (0, pool2, started)) :
    ∃ job, env.jobAlloc = some job ∧ WellFormed pool2 (l ++ [job]) ∧
      (∀ a, a ∈ l → prioAt pool2.mem a = prioAt pool.mem a ∧
        dataAt pool2.mem a = dataAt pool.mem a) ∧
      prioAt pool2.mem job = priority ∧ dataAt pool2.mem job = data ∧
      pool2.quit = false := by
  obtain ⟨job, hjob, henq⟩ := sendJob_inv env pool priority data pool2 started hq h
  have hsame := sendJobExpand_same env.expand pool
  have hwf1 := wellFormed_of_same _ _ _ hsame hwf
  obtain ⟨hj0, hjb, hjm⟩ := hfresh job hjob
  have hjm1 : (sendJobExpand env.expand pool).2.1.mem job = none := by
    rw [hsame.2.2.2.2.2.2]; exact hjm
  obtain ⟨p2, hp2, hq2, _, hpay, hprio, hdata, _, hdepth, hfirst, _, hquit, _⟩ :=
    enqueueJob_spec _ l job priority data hwf1.1 hj0 hjb hjm1
  rw [henq] at hp2
  cases hp2
  have hmemeq : (sendJobExpand env.expand pool).2.1.mem = pool.mem := hsame.2.2.2.2.2.2
  refine ⟨job, hjob, ⟨hq2, ?_, ?_⟩, ?_, hprio, hdata, ?_⟩
  · rw [hdepth, hwf1.2.1, List.length_append, List.length_singleton]
    have := isQueue_length _ _ hq2
    rw [List.length_append, List.length_singleton] at this
    exact sizeAdd_of_lt _ _ this
  · rw [hfirst, hwf1.2.2, oldestPrio_append _ _ _ (isQueue_nonzero _ _ hwf1.1)]
    have hold : oldestPrio pool2.mem l = oldestPrio (sendJobExpand env.expand pool).2.1.mem l :=
      oldestPrio_congr _ _ _ (fun a ha => (hpay a ha).1)
    rw [hold]
    by_cases h0 : oldestPrio (sendJobExpand env.expand pool).2.1.mem l = 0
    · simp only [h0, and_true, if_true, oldestPrio, hprio]
    · simp [h0]
  · intro a ha
    rw [← hmemeq]
    exact hpay a ha
  · rw [hquit, hsame.1]; exact hq

/-- A worker at `entry` that finds `quit` unset and its side of the queue
not empty goes on to take a job. -/
theorem workerRunsJob_eq (fuel : Nat) (priority : Bool) (pool : virThreadPool)
    (hq : pool.quit = false)
    (hside : (if priority then pool.jobList.firstPrio else pool.jobList.head) ≠ 0) :
    workerRunsJob fuel priority pool =
      match workerTakeJob fuel priority pool with
      | some (job, pool1) =>
        (match pool1.mem job with
          | none => none
          | some j =>
            some ({ pool1 with mem := release pool1.mem job }, QueueObs.ran priority j.data))
      | none => none := by
  have hcond : ¬ (pool.quit = false ∧
      ((priority = false ∧ pool.jobList.head = 0) ∨
       (priority = true ∧ pool.jobList.firstPrio = 0))) := by
    cases priority <;> simp_all
  have hq2 : ¬ (pool.quit = true) := by simp [hq]
  unfold workerRunsJob virThreadPoolWorker workerLoop
  simp only []
  rw [if_neg hcond, if_neg hq2]
  cases workerTakeJob fuel priority pool with
  | none => rfl
  | some r => cases r; rfl

/-- A worker only gets a job when `quit` is unset and its side of the queue
is not empty. -/
theorem workerRunsJob_guard (fuel : Nat) (priority : Bool) (pool : virThreadPool)
    (r : virThreadPool × QueueObs) (h : workerRunsJob fuel priority pool = some r) :
    pool.quit = false ∧
      (if priority then pool.jobList.firstPrio else pool.jobList.head) ≠ 0 := by
  by_cases hc : pool.quit = false ∧
      ((priority = false ∧ pool.jobList.head = 0) ∨
       (priority = true ∧ pool.jobList.firstPrio = 0))
  · have hn : workerRunsJob fuel priority pool = none := by
      unfold workerRunsJob virThreadPoolWorker workerLoop
      simp only []
      rw [if_pos hc]
    rw [hn] at h; cases h
  · by_cases hq : pool.quit = true
    · have hn : workerRunsJob fuel priority pool = none := by
        unfold workerRunsJob virThreadPoolWorker workerLoop
        simp only []
        rw [if_neg hc, if_pos hq]
      rw [hn] at h; cases h
    · have hq2 : pool.quit = false := by simpa using hq
      refine ⟨hq2, ?_⟩
      intro h0
      apply hc
      refine ⟨hq2, ?_⟩
      cases priority
      · left; exact ⟨rfl, by simpa using h0⟩
      · right; exact ⟨rfl, by simpa using h0⟩

/-- A worker that takes the job `job` out of the well-formed queue
`pre ++ job :: post` runs it and leaves the well-formed queue `pre ++ post`,
provided `firstPrio` ends up where the invariant wants it. -/
theorem wellFormed_runsJob (fuel : Nat) (priority : Bool) (pool : virThreadPool)
    (pre post : List Nat) (job : Nat) (hwf : WellFormed pool (pre ++ job :: post))
    (hq : pool.quit = false)
    (hpick : (if priority then pool.jobList.firstPrio else pool.jobList.head) = job)
    (hfp : (if job = pool.jobList.firstPrio then oldestPrio pool.mem post
            else pool.jobList.firstPrio) = oldestPrio pool.mem (pre ++ post))
    (hfuel : post.length ≤ fuel) :
    ∃ pool2, workerRunsJob fuel priority pool =
        some (pool2, QueueObs.ran priority (dataAt pool.mem job)) ∧
      WellFormed pool2 (pre ++ post) ∧
      (∀ a, a ∈ pre ++ post → prioAt pool2.mem a = prioAt pool.mem a ∧
        dataAt pool2.mem a = dataAt pool.mem a) ∧
      pool2.mem job = none ∧ pool2.quit = false ∧
      pool2.nWorkers = pool.nWorkers ∧ pool2.nPrioWorkers = pool.nPrioWorkers ∧
      pool2.maxWorkers = pool.maxWorkers ∧ pool2.minWorkers = pool.minWorkers ∧
      pool2.freeWorkers = pool.freeWorkers := by
  obtain ⟨hisq, hdepth, hfirst⟩ := hwf
  have hj0 : job ≠ 0 := isQueue_nonzero _ _ hisq job (by simp)
  obtain ⟨_, j, hj⟩ := dlseg_mem_alloc _ _ _ _ _ _ hisq.1 job (by simp)
  obtain ⟨pool1, htake, hq1, hpay, hmemjob, _, hdepth1, hfirst1, hquit1, hn, hnp, hmax, hmin,
    hfree⟩ := workerTakeJob_spec fuel priority pool pre post job hisq hpick hfuel
  have hjnot : job ∉ pre ++ post := by
    have hnd := hisq.2.1
    rw [List.nodup_append] at hnd
    intro hin
    rcases List.mem_append.1 hin with h | h
    · exact hnd.2.2 h (List.mem_cons_self _ _)
    · exact (List.nodup_cons.1 hnd.2.1).1 h
  have hne : ∀ a, a ∈ pre ++ post → a ≠ job := fun a ha e => hjnot (e ▸ ha)
  have hpay2 : ∀ a, a ∈ pre ++ post →
      prioAt (release pool1.mem job) a = prioAt pool.mem a ∧
      dataAt (release pool1.mem job) a = dataAt pool.mem a := by
    intro a ha
    have h1 := hpay a (hne a ha)
    have hr : release pool1.mem job a = pool1.mem a := release_other _ _ _ (hne a ha)
    constructor
    · rw [← h1.1]; simp [prioAt, hr]
    · rw [← h1.2]; simp [dataAt, hr]
  refine ⟨{ pool1 with mem := release pool1.mem job }, ?_, ⟨⟨?_, hq1.2.1, hq1.2.2⟩, ?_, ?_⟩,
    hpay2, release_same _ _, by rw [← hq]; exact hquit1, hn, hnp, hmax, hmin, hfree⟩
  · rw [workerRunsJob_eq fuel priority pool hq (by rw [hpick]; exact hj0), htake]
    simp only [hmemjob, hj, dataAt_of _ _ _ hj]
  · exact dlseg_release_frame _ _ _ _ _ _ _ hjnot hq1.1
  · show pool1.jobQueueDepth = (pre ++ post).length
    have hlen := isQueue_length _ _ hisq
    rw [hdepth1, hdepth]
    have h1 : 1 ≤ (pre ++ job :: post).length := by
      rw [List.length_append, List.length_cons]; omega
    rw [sizeSub_of_le _ 1 h1 hlen]
    simp only [List.length_append, List.length_cons]
    omega
  · show pool1.jobList.firstPrio = oldestPrio (release pool1.mem job) (pre ++ post)
    rw [hfirst1, hfp]
    exact (oldestPrio_congr _ _ _ (fun a ha => (hpay2 a ha).1)).symm

/-- An ordinary worker on a well-formed, non-empty queue runs the job at
`head`. -/
theorem wellFormed_takeOrdinary (fuel : Nat) (pool : virThreadPool) (l : List Nat)
    (hwf : WellFormed pool l) (hq : pool.quit = false) (hhead : pool.jobList.head ≠ 0)
    (hfuel : l.length ≤ fuel) :
    ∃ rest pool2, l = pool.jobList.head :: rest ∧
      workerRunsJob fuel false pool =
        some (pool2, QueueObs.ran false (dataAt pool.mem pool.jobList.head)) ∧
      WellFormed pool2 rest ∧
      (∀ a, a ∈ rest → prioAt pool2.mem a = prioAt pool.mem a ∧
        dataAt pool2.mem a = dataAt pool.mem a) ∧
      pool2.quit = false ∧ pool2.mem pool.jobList.head = none := by
  rcases isQueue_head pool l hwf.1 with ⟨_, h0⟩ | ⟨rest, hl, _⟩
  · exact absurd h0 hhead
  · have hwf2 : WellFormed pool ([] ++ pool.jobList.head :: rest) := by
      rw [List.nil_append, ← hl]; exact hwf
    have hfp : (if pool.jobList.head = pool.jobList.firstPrio then oldestPrio pool.mem rest
            else pool.jobList.firstPrio) = oldestPrio pool.mem ([] ++ rest) := by
      rw [List.nil_append]
      split
      · rfl
      · rename_i hne
        have hf := hwf.2.2
        rw [hl] at hf
        simp only [oldestPrio] at hf
        by_cases hp : prioAt pool.mem pool.jobList.head ≠ 0
        · rw [if_pos hp] at hf; exact absurd hf.symm hne
        · rw [if_neg hp] at hf; exact hf
    have hfuel2 : rest.length ≤ fuel := by
      rw [hl, List.length_cons] at hfuel; omega
    obtain ⟨pool2, hrun, hwf3, hpay, hfreed, hq2, _⟩ :=
      wellFormed_runsJob fuel false pool [] rest pool.jobList.head hwf2 hq (by simp) hfp hfuel2
    exact ⟨rest, pool2, hl, hrun, by simpa using hwf3, by simpa using hpay, hq2, hfreed⟩

/-- A priority worker on a well-formed queue with a job of priority above
zero runs the oldest such job. -/
theorem wellFormed_takePriority (fuel : Nat) (pool : virThreadPool) (l : List Nat)
    (hwf : WellFormed pool l) (hq : pool.quit = false) (hfirst : pool.jobList.firstPrio ≠ 0)
    (hfuel : l.length ≤ fuel) :
    ∃ pre post pool2, l = pre ++ pool.jobList.firstPrio :: post ∧
      (∀ a ∈ pre, prioAt pool.mem a = 0) ∧ prioAt pool.mem pool.jobList.firstPrio ≠ 0 ∧
      workerRunsJob fuel true pool =
        some (pool2, QueueObs.ran true (dataAt pool.mem pool.jobList.firstPrio)) ∧
      WellFormed pool2 (pre ++ post) ∧
      (∀ a, a ∈ pre ++ post → prioAt pool2.mem a = prioAt pool.mem a ∧
        dataAt pool2.mem a = dataAt pool.mem a) ∧
      pool2.quit = false ∧ pool2.mem pool.jobList.firstPrio = none := by
  have hf := hwf.2.2
  have hne : oldestPrio pool.mem l ≠ 0 := by rw [← hf]; exact hfirst
  obtain ⟨pre, post, hl, hpre, hprio⟩ := oldestPrio_split pool.mem l hne
  rw [← hf] at hl hprio
  have hwf2 : WellFormed pool (pre ++ pool.jobList.firstPrio :: post) := by
    rw [← hl]; exact hwf
  have hfp : (if pool.jobList.firstPrio = pool.jobList.firstPrio then oldestPrio pool.mem post
            else pool.jobList.firstPrio) = oldestPrio pool.mem (pre ++ post) := by
    rw [if_pos rfl, oldestPrio_append_zero _ _ _ hpre]
  have hfuel2 : post.length ≤ fuel := by
    rw [hl, List.length_append, List.length_cons] at hfuel; omega
  obtain ⟨pool2, hrun, hwf3, hpay, hfreed, hq2, _⟩ :=
    wellFormed_runsJob fuel true pool pre post pool.jobList.firstPrio hwf2 hq (by simp) hfp hfuel2
  exact ⟨pre, post, pool2, hl, hpre, hprio, hrun, hwf3, hpay, hq2, hfreed⟩

/-- Whatever a worker that got a job did on a well-formed queue, it took
one job out of it, ran it on its data and left a well-formed queue. -/
theorem wellFormed_runsJob_inv (fuel : Nat) (priority : Bool) (pool : virThreadPool)
    (l : List Nat) (pool2 : virThreadPool) (obs : QueueObs) (hwf : WellFormed pool l)
    (h : workerRunsJob fuel priority pool = some (pool2, obs)) :
    ∃ pre job post, l = pre ++ job :: post ∧ (priority = false → pre = []) ∧
      obs = QueueObs.ran priority (dataAt pool.mem job) ∧
      WellFormed pool2 (pre ++ post) ∧
      (∀ a, a ∈ pre ++ post → prioAt pool2.mem a = prioAt pool.mem a ∧
        dataAt pool2.mem a = dataAt pool.mem a) ∧
      pool2.quit = false ∧ pool2.mem job = none := by
  obtain ⟨hq, hside⟩ := workerRunsJob_guard fuel priority pool _ h
  have hmono := workerRunsJob_mono fuel (max fuel l.length) priority pool _ (le_max_left _ _) h
  cases priority with
  | false =>
    simp only [Bool.false_eq_true, if_false] at hside
    obtain ⟨rest, p2, hl, hrun, hwf2, hpay, hq2, hfreed⟩ :=
      wellFormed_takeOrdinary (max fuel l.length) pool l hwf hq hside (le_max_right _ _)
    rw [hmono] at hrun
    simp only [Option.some.injEq, Prod.mk.injEq] at hrun
    obtain ⟨rfl, rfl⟩ := hrun
    exact ⟨[], pool.jobList.head, rest, by simpa using hl, fun _ => rfl, rfl,
      by simpa using hwf2, by simpa using hpay, hq2, hfreed⟩
  | true =>
    simp only [if_true] at hside
    obtain ⟨pre, post, p2, hl, _, _, hrun, hwf2, hpay, hq2, hfreed⟩ :=
      wellFormed_takePriority (max fuel l.length) pool l hwf hq hside (le_max_right _ _)
    rw [hmono] at hrun
    simp only [Option.some.injEq, Prod.mk.injEq] at hrun
    obtain ⟨rfl, rfl⟩ := hrun
    exact ⟨pre, pool.jobList.firstPrio, post, hl, (fun h => Bool.noConfusion h), rfl, hwf2, hpay,
      hq2, hfreed⟩

/-! ## Runs of queue operations -/

theorem pendingData_congr (pool pool2 : virThreadPool) (l : List Nat)
    (h : ∀ a, a ∈ l → dataAt pool2.mem a = dataAt pool.mem a) :
    pendingData pool2 l = pendingData pool l := by
  unfold pendingData
  exact List.map_congr_left h

/-- One queue operation on a well-formed queue: a submission appends its
data to the pending data, a removal takes one pending job out and runs it;
an ordinary removal takes the oldest. -/
theorem queueStep_inv (pool : virThreadPool) (l : List Nat) (op : QueueOp)
    (pool1 : virThreadPool) (o : QueueObs) (hwf : WellFormed pool l)
    (h : queueStep pool op = some (pool1, o)) :
    pool.quit = false ∧ pool1.quit = false ∧
    ∃ l1, WellFormed pool1 l1 ∧
      ((∃ d, o = QueueObs.submitted d ∧ pendingData pool1 l1 = pendingData pool l ++ [d]) ∨
       (∃ pr d dpre dpost, o = QueueObs.ran pr d ∧ pendingData pool l = dpre ++ d :: dpost ∧
          pendingData pool1 l1 = dpre ++ dpost ∧ (op.isOrdinary = true → dpre = []))) := by
  cases op with
  | submit env priority data =>
    simp only [queueStep] at h
    split at h
    · rename_i hfresh
      split at h
      · rename_i p1 st heq
        simp only [Option.some.injEq, Prod.mk.injEq] at h
        obtain ⟨rfl, rfl⟩ := h
        have hq : pool.quit = false := by
          by_contra hq
          have hq2 : pool.quit = true := by simpa using hq
          simp [virThreadPoolSendJob, hq2] at heq
        obtain ⟨job, _, hwf1, hpay, _, hdata, hq1⟩ :=
          wellFormed_sendJob env pool priority data l _ _ hwf hq hfresh heq
        refine ⟨hq, hq1, l ++ [job], hwf1, Or.inl ⟨data, rfl, ?_⟩⟩
        unfold pendingData
        rw [List.map_append, List.map_singleton, hdata]
        congr 1
        exact List.map_congr_left (fun a ha => (hpay a ha).2)
      · cases h
    · cases h
  | takeOrdinary fuel =>
    simp only [queueStep] at h
    obtain ⟨pre, job, post, hl, hpre, ho, hwf1, hpay, hq1, _⟩ :=
      wellFormed_runsJob_inv fuel false pool l pool1 o hwf h
    have hpre0 := hpre rfl
    subst hpre0
    refine ⟨(workerRunsJob_guard _ _ _ _ h).1, hq1, post, by simpa using hwf1,
      Or.inr ⟨false, dataAt pool.mem job, [], pendingData pool post, ho, ?_, ?_, fun _ => rfl⟩⟩
    · rw [hl]; simp [pendingData]
    · simp only [List.nil_append]
      exact pendingData_congr _ _ _ (fun a ha => (hpay a (by simpa using ha)).2)
  | takePriority fuel =>
    simp only [queueStep] at h
    obtain ⟨pre, job, post, hl, _, ho, hwf1, hpay, hq1, _⟩ :=
      wellFormed_runsJob_inv fuel true pool l pool1 o hwf h
    refine ⟨(workerRunsJob_guard _ _ _ _ h).1, hq1, pre ++ post, hwf1,
      Or.inr ⟨true, dataAt pool.mem job, pendingData pool pre, pendingData pool post, ho, ?_, ?_,
        fun hc => by simp [QueueOp.isOrdinary] at hc⟩⟩
    · rw [hl]; simp [pendingData]
    · rw [pendingData_congr _ _ _ (fun a ha => (hpay a ha).2)]
      simp [pendingData]

/-- Along a run of queue operations from a well-formed queue the invariants
hold, every job accepted is pending or was run, and a run without priority
removals runs the jobs in the order of the queue. -/
theorem queueRun_inv (ops : List QueueOp) :
    ∀ (pool : virThreadPool) (l : List Nat) (pool2 : virThreadPool) (obs : List QueueObs),
      WellFormed pool l → queueRun pool ops = some (pool2, obs) →
      ∃ l2, WellFormed pool2 l2 ∧
        (pendingData pool l ++ submittedData obs).Perm (ranData obs ++ pendingData pool2 l2) ∧
        ((∀ op ∈ ops, op.isOrdinary = true) →
          pendingData pool l ++ submittedData obs = ranData obs ++ pendingData pool2 l2) ∧
        (ops = [] → l2 = l) ∧ (ops ≠ [] → pool2.quit = false) := by
  induction ops with
  | nil =>
    intro pool l pool2 obs hwf h
    simp only [queueRun, Option.some.injEq, Prod.mk.injEq] at h
    obtain ⟨rfl, rfl⟩ := h
    exact ⟨l, hwf, by simp [submittedData, ranData], by simp [submittedData, ranData],
      fun _ => rfl, fun h => absurd rfl h⟩
  | cons op ops ih =>
    intro pool l pool2 obs hwf h
    simp only [queueRun] at h
    cases hs : queueStep pool op with
    | none => rw [hs] at h; cases h
    | some r1 =>
      obtain ⟨pool1, o⟩ := r1
      rw [hs] at h
      simp only at h
      cases hr : queueRun pool1 ops with
      | none => rw [hr] at h; cases h
      | some r2 =>
        obtain ⟨p2, os⟩ := r2
        rw [hr] at h
        simp only [Option.some.injEq, Prod.mk.injEq] at h
        obtain ⟨rfl, rfl⟩ := h
        obtain ⟨_, hq1, l1, hwf1, hcase⟩ := queueStep_inv pool l op pool1 o hwf hs
        obtain ⟨l2, hwf2, hperm, heq, hnil, hquit⟩ := ih pool1 l1 p2 os hwf1 hr
        have hq2 : p2.quit = false := by
          by_cases hops : ops = []
          · subst hops
            simp only [queueRun, Option.some.injEq, Prod.mk.injEq] at hr
            rw [← hr.1]; exact hq1
          · exact hquit hops
        refine ⟨l2, hwf2, ?_, ?_, (fun hc => List.noConfusion hc), fun _ => hq2⟩
        · rcases hcase with ⟨d, rfl, hd⟩ | ⟨pr, d, dpre, dpost, rfl, hd, hd1, _⟩
          · rw [hd] at hperm
            simpa [submittedData, ranData] using hperm
          · rw [hd1] at hperm
            rw [hd]
            simp only [submittedData, ranData, List.cons_append, List.append_assoc]
            exact List.perm_middle.trans (List.Perm.cons d (by simpa using hperm))
        · intro hord
          have hord1 : ∀ op ∈ ops, op.isOrdinary = true :=
            fun op hop => hord op (List.mem_cons_of_mem _ hop)
          have heq1 := heq hord1
          rcases hcase with ⟨d, rfl, hd⟩ | ⟨pr, d, dpre, dpost, rfl, hd, hd1, hpre⟩
          · rw [hd] at heq1
            simpa [submittedData, ranData] using heq1
          · have := hpre (hord op (List.mem_cons_self _ _))
            subst this
            rw [hd1] at heq1
            rw [hd]
            simp only [submittedData, ranData, List.cons_append, List.nil_append] at heq1 ⊢
            rw [heq1]

theorem prioJobs_congr (mem mem2 : JobMem) (l : List Nat)
    (h : ∀ a, a ∈ l → prioAt mem2 a = prioAt mem a) : prioJobs mem2 l = prioJobs mem l := by
  unfold prioJobs
  apply List.filter_congr
  intro a ha
  rw [h a ha]

theorem plainJobs_congr (mem mem2 : JobMem) (l : List Nat)
    (h : ∀ a, a ∈ l → prioAt mem2 a = prioAt mem a) : plainJobs mem2 l = plainJobs mem l := by
  unfold plainJobs
  apply List.filter_congr
  intro a ha
  rw [h a ha]

theorem prioJobs_zero (mem : JobMem) (l : List Nat) (h : ∀ a ∈ l, prioAt mem a = 0) :
    prioJobs mem l = [] := by
  unfold prioJobs
  rw [List.filter_eq_nil_iff]
  intro a ha
  simp [h a ha]

theorem plainJobs_zero (mem : JobMem) (l : List Nat) (h : ∀ a ∈ l, prioAt mem a = 0) :
    plainJobs mem l = l := by
  unfold plainJobs
  rw [List.filter_eq_self]
  intro a ha
  simp [h a ha]

theorem prioJobs_split (mem : JobMem) (pre post : List Nat) (job : Nat)
    (hpre : ∀ a ∈ pre, prioAt mem a = 0) (hjob : prioAt mem job ≠ 0) :
    prioJobs mem (pre ++ job :: post) = job :: prioJobs mem post ∧
    prioJobs mem (pre ++ post) = prioJobs mem post ∧
    plainJobs mem (pre ++ job :: post) = plainJobs mem (pre ++ post) := by
  have h1 := prioJobs_zero mem pre hpre
  unfold prioJobs plainJobs at *
  simp only [List.filter_append, h1, List.nil_append]
  refine ⟨?_, trivial, ?_⟩
  · rw [List.filter_cons_of_pos (by simpa using hjob)]
  · rw [List.filter_cons_of_neg (by simpa using hjob)]

/-- Priority workers that keep taking jobs run all the jobs with a priority
above zero, oldest first, and leave the jobs of priority zero. -/
theorem drain_priority (fuel : Nat) :
    ∀ (n : Nat) (pool : virThreadPool) (l : List Nat),
      WellFormed pool l → pool.quit = false → l.length ≤ fuel →
      (prioJobs pool.mem l).length = n →
      ∃ pool2, queueRun pool (List.replicate n (QueueOp.takePriority fuel)) =
          some (pool2, (prioJobs pool.mem l).map (fun a => QueueObs.ran true (dataAt pool.mem a))) ∧
        WellFormed pool2 (plainJobs pool.mem l) ∧
        (∀ a, a ∈ plainJobs pool.mem l →
          prioAt pool2.mem a = prioAt pool.mem a ∧ dataAt pool2.mem a = dataAt pool.mem a) := by
  intro n
  induction n with
  | zero =>
    intro pool l hwf _ _ hn
    have hnil : prioJobs pool.mem l = [] := List.length_eq_zero.1 hn
    have hall : ∀ a ∈ l, prioAt pool.mem a = 0 := by
      intro a ha
      by_contra hne
      have : a ∈ prioJobs pool.mem l := by
        unfold prioJobs
        exact List.mem_filter.2 ⟨ha, by simpa using hne⟩
      rw [hnil] at this
      cases this
    refine ⟨pool, by simp [queueRun, hnil], ?_, fun a _ => ⟨rfl, rfl⟩⟩
    rw [plainJobs_zero _ _ hall]
    exact hwf
  | succ n ih =>
    intro pool l hwf hq hfuel hn
    have hfirst : pool.jobList.firstPrio ≠ 0 := by
      intro h0
      rw [hwf.2.2, oldestPrio_eq_zero_iff _ _ (isQueue_nonzero _ _ hwf.1)] at h0
      rw [prioJobs_zero _ _ h0] at hn
      simp at hn
    obtain ⟨pre, post, pool1, hl, hpre, hprio, hrun, hwf1, hpay, hq1, _⟩ :=
      wellFormed_takePriority fuel pool l hwf hq hfirst hfuel
    obtain ⟨hs1, hs2, hs3⟩ := prioJobs_split pool.mem pre post _ hpre hprio
    have hpj1 : prioJobs pool1.mem (pre ++ post) = prioJobs pool.mem post := by
      rw [prioJobs_congr _ _ _ (fun a ha => (hpay a ha).1), hs2]
    have hlen1 : (prioJobs pool1.mem (pre ++ post)).length = n := by
      rw [hpj1]
      rw [hl, hs1, List.length_cons] at hn
      omega
    have hfuel1 : (pre ++ post).length ≤ fuel := by
      rw [hl] at hfuel
      simp only [List.length_append, List.length_cons] at hfuel ⊢
      omega
    obtain ⟨pool2, hrun2, hwf2, hpay2⟩ := ih pool1 (pre ++ post) hwf1 hq1 hfuel1 hlen1
    have hplain : plainJobs pool1.mem (pre ++ post) = plainJobs pool.mem l := by
      rw [plainJobs_congr _ _ _ (fun a ha => (hpay a ha).1)]
      conv_rhs => rw [hl]
      rw [hs3]
    have hsub : ∀ a, a ∈ prioJobs pool.mem post → a ∈ pre ++ post := by
      intro a ha
      unfold prioJobs at ha
      exact List.mem_append_right _ (List.mem_filter.1 ha).1
    refine ⟨pool2, ?_, by rw [← hplain]; exact hwf2, ?_⟩
    · simp only [List.replicate_succ, queueRun, queueStep, hrun, hrun2]
      conv_rhs => rw [hl, hs1]
      rw [List.map_cons, hpj1]
      congr 3
      apply List.map_congr_left
      intro a ha
      rw [(hpay a (hsub a ha)).2]
    · intro a ha
      rw [← hplain] at ha
      have hmem : a ∈ pre ++ post := by
        unfold plainJobs at ha
        exact (List.mem_filter.1 ha).1
      have h2 := hpay2 a ha
      have h1 := hpay a hmem
      exact ⟨h2.1.trans h1.1, h2.2.trans h1.2⟩

/-! ## Counter arithmetic -/

theorem sizeSub_rollback (n gain i : Nat) :
    sizeSub (sizeAdd n gain) (sizeSub gain i) = sizeAdd n i := by
  unfold sizeSub sizeAdd SIZE_MOD
  norm_num
  omega

/-! ## The spawn loop -/

theorem expandLoop_spec (spawn : Nat → SpawnOutcome) :
    ∀ (remaining i0 : Nat),
      ((expandLoop spawn remaining i0).2 = true →
        (expandLoop spawn remaining i0).1 = i0 + remaining ∧
        ∀ k, i0 ≤ k → k < i0 + remaining → spawn k = SpawnOutcome.started) ∧
      ((expandLoop spawn remaining i0).2 = false →
        i0 ≤ (expandLoop spawn remaining i0).1 ∧
        (expandLoop spawn remaining i0).1 < i0 + remaining ∧
        spawn (expandLoop spawn remaining i0).1 ≠ SpawnOutcome.started ∧
        ∀ k, i0 ≤ k → k < (expandLoop spawn remaining i0).1 → spawn k = SpawnOutcome.started) := by
  intro remaining
  induction remaining with
  | zero =>
    intro i0
    simp [expandLoop]
    intro k h1 h2
    omega
  | succ r ih =>
    intro i0
    cases hs : spawn i0 with
    | started =>
      have hstep : expandLoop spawn (r + 1) i0 = expandLoop spawn r (i0 + 1) := by
        simp [expandLoop, hs]
      rw [hstep]
      obtain ⟨h1, h2⟩ := ih (i0 + 1)
      constructor
      · intro ht
        obtain ⟨ha, hb⟩ := h1 ht
        refine ⟨by omega, ?_⟩
        intro k hk1 hk2
        by_cases hk : k = i0
        · rw [hk]; exact hs
        · exact hb k (by omega) (by omega)
      · intro hf
        obtain ⟨ha, hb, hc, hd⟩ := h2 hf
        refine ⟨by omega, by omega, hc, ?_⟩
        intro k hk1 hk2
        by_cases hk : k = i0
        · rw [hk]; exact hs
        · exact hd k (by omega) hk2
    | allocFailed =>
      have hstep : expandLoop spawn (r + 1) i0 = (i0, false) := by simp [expandLoop, hs]
      rw [hstep]
      refine ⟨(fun h => Bool.noConfusion h), fun _ => ⟨le_rfl, by omega, by simp [hs], ?_⟩⟩
      intro k h1 h2; omega
    | createFailed =>
      have hstep : expandLoop spawn (r + 1) i0 = (i0, false) := by simp [expandLoop, hs]
      rw [hstep]
      refine ⟨(fun h => Bool.noConfusion h), fun _ => ⟨le_rfl, by omega, by simp [hs], ?_⟩⟩
      intro k h1 h2; omega

/-- The spawn loop runs to its end exactly when every spawn succeeds. -/
theorem expandLoop_all (spawn : Nat → SpawnOutcome) (gain : Nat)
    (h : ∀ k, k < gain → spawn k = SpawnOutcome.started) :
    expandLoop spawn gain 0 = (gain, true) := by
  obtain ⟨h1, h2⟩ := expandLoop_spec spawn gain 0
  cases hb : (expandLoop spawn gain 0).2 with
  | true =>
    have := (h1 hb).1
    rw [Prod.ext_iff]; simp only [hb, and_true]; omega
  | false =>
    obtain ⟨_, hlt, hne, _⟩ := h2 hb
    exact absurd (h _ (by omega)) hne

/-- The spawn loop leaves at the first spawn that fails. -/
theorem expandLoop_fail (spawn : Nat → SpawnOutcome) (gain i : Nat) (hi : i < gain)
    (hbefore : ∀ k, k < i → spawn k = SpawnOutcome.started)
    (hfail : spawn i ≠ SpawnOutcome.started) :
    expandLoop spawn gain 0 = (i, false) := by
  obtain ⟨h1, h2⟩ := expandLoop_spec spawn gain 0
  cases hb : (expandLoop spawn gain 0).2 with
  | true =>
    exact absurd ((h1 hb).2 i (Nat.zero_le _) (by omega)) hfail
  | false =>
    obtain ⟨_, hlt, hne, hall⟩ := h2 hb
    have hEq : (expandLoop spawn gain 0).1 = i := by
      rcases Nat.lt_trichotomy (expandLoop spawn gain 0).1 i with h | h | h
      · exact absurd (hbefore _ h) hne
      · exact h
      · exact absurd (hall i (Nat.zero_le _) h) hfail
    rw [Prod.ext_iff]; exact ⟨hEq, hb⟩

theorem curWorkers_set (pool : virThreadPool) (priority : Bool) (n : Nat) :
    curWorkers (setCurWorkers pool priority n) priority = n ∧
    curWorkers (setCurWorkers pool priority n) (!priority) = curWorkers pool (!priority) := by
  cases priority <;> simp [curWorkers, setCurWorkers]

/-- What `virThreadPoolExpand` does when the array has grown and every
spawn succeeds. -/
theorem expand_all_started (env : ExpandEnv) (pool : virThreadPool) (gain : Nat)
    (priority : Bool) (hgrow : env.growOk = true)
    (h : ∀ k, k < gain → env.spawn k = SpawnOutcome.started) :
    virThreadPoolExpand env pool gain priority =
      (0, setCurWorkers pool priority (sizeAdd (curWorkers pool priority) gain), gain) := by
  unfold virThreadPoolExpand
  simp only [hgrow, Bool.true_eq_false, if_false, expandLoop_all env.spawn gain h]

/-- What `virThreadPoolExpand` does when the array has grown and the spawn
at index `i` is the first to fail. -/
theorem expand_failed_at (env : ExpandEnv) (pool : virThreadPool) (gain i : Nat)
    (priority : Bool) (hgrow : env.growOk = true) (hi : i < gain)
    (hbefore : ∀ k, k < i → env.spawn k = SpawnOutcome.started)
    (hfail : env.spawn i ≠ SpawnOutcome.started) :
    virThreadPoolExpand env pool gain priority =
      (-1, setCurWorkers
            (setCurWorkers pool priority (sizeAdd (curWorkers pool priority) gain)) priority
            (sizeAdd (curWorkers pool priority) i), i) := by
  unfold virThreadPoolExpand
  simp only [hgrow, Bool.true_eq_false, if_false,
    expandLoop_fail env.spawn gain i hi hbefore hfail]
  rw [(curWorkers_set pool priority _).1, sizeSub_rollback]


/-! ## The worker counters under the operations -/

theorem enqueueJob_counters (pool : virThreadPool) (job priority data : Nat)
    (pool2 : virThreadPool) (h : enqueueJob pool job priority data = some pool2) :
    pool2.nWorkers = pool.nWorkers ∧ pool2.nPrioWorkers = pool.nPrioWorkers ∧
    pool2.maxWorkers = pool.maxWorkers ∧ pool2.minWorkers = pool.minWorkers ∧
    pool2.quit = pool.quit ∧ pool2.freeWorkers = pool.freeWorkers := by
  unfold enqueueJob at h
  simp only at h
  split at h
  · cases h
  · simp only [Option.some.injEq] at h
    subst h
    exact ⟨rfl, rfl, rfl, rfl, rfl, rfl⟩

/-- The expansion step of a submission on a pool below its cap: `nWorkers`
grows by the number of threads started, which is 0 or 1, and stays within
`maxWorkers`. -/
theorem sendJobExpand_counters (env : ExpandEnv) (pool : virThreadPool)
    (hle : pool.nWorkers ≤ pool.maxWorkers) (hmax : pool.maxWorkers < SIZE_MOD) :
    (sendJobExpand env pool).2.1.nWorkers = pool.nWorkers + (sendJobExpand env pool).2.2 ∧
    (sendJobExpand env pool).2.1.nWorkers ≤ pool.maxWorkers := by
  unfold sendJobExpand
  split
  · rename_i hc
    have hlt : pool.nWorkers + 1 < SIZE_MOD := by omega
    by_cases hg : env.growOk = true
    · by_cases hs : env.spawn 0 = SpawnOutcome.started
      · rw [expand_all_started env pool 1 false hg (fun k hk => by
          have : k = 0 := by omega
          rw [this]; exact hs)]
        simp only [setCurWorkers, curWorkers, Bool.false_eq_true, if_false]
        rw [sizeAdd_of_lt _ _ hlt]
        exact ⟨rfl, by omega⟩
      · rw [expand_failed_at env pool 1 0 false hg (by omega) (fun k hk => by omega) hs]
        simp only [setCurWorkers, curWorkers, Bool.false_eq_true, if_false]
        rw [sizeAdd_of_lt _ _ (by omega)]
        exact ⟨rfl, by omega⟩
    · have hg2 : env.growOk = false := by simpa using hg
      simp [virThreadPoolExpand, hg2, hle]
  · exact ⟨rfl, hle⟩

/-- A submission on a pool within its cap: `nWorkers` grows by the number
of threads started and stays within `maxWorkers`; the bounds and `quit` are
as before. -/
theorem sendJob_counters (env : SendEnv) (pool : virThreadPool) (priority data : Nat)
    (ret : Int) (pool2 : virThreadPool) (started : Nat)
    (hle : pool.nWorkers ≤ pool.maxWorkers) (hmax : pool.maxWorkers < SIZE_MOD)
    (h : virThreadPoolSendJob env pool priority data = some (ret, pool2, started)) :
    pool2.nWorkers = pool.nWorkers + started ∧ pool2.nWorkers ≤ pool2.maxWorkers ∧
    pool2.maxWorkers = pool.maxWorkers ∧ pool2.minWorkers = pool.minWorkers ∧
    pool2.quit = pool.quit := by
  unfold virThreadPoolSendJob at h
  by_cases hq : pool.quit = true
  · simp only [hq, if_true, Option.some.injEq, Prod.mk.injEq] at h
    obtain ⟨_, rfl, rfl⟩ := h
    exact ⟨rfl, hle, rfl, rfl, rfl⟩
  · simp only [hq, Bool.false_eq_true, if_false] at h
    have hcnt := sendJobExpand_counters env.expand pool hle hmax
    have hsame := sendJobExpand_same env.expand pool
    rcases hr : sendJobExpand env.expand pool with ⟨r, pool1, st⟩
    rw [hr] at h hcnt hsame
    simp only at h hcnt hsame
    have hbase : pool1.nWorkers = pool.nWorkers + st ∧ pool1.nWorkers ≤ pool1.maxWorkers ∧
        pool1.maxWorkers = pool.maxWorkers ∧ pool1.minWorkers = pool.minWorkers ∧
        pool1.quit = pool.quit :=
      ⟨hcnt.1, by rw [hsame.2.2.2.1]; exact hcnt.2, hsame.2.2.2.1, hsame.2.2.2.2.1, hsame.1⟩
    split at h
    · simp only [Option.some.injEq, Prod.mk.injEq] at h
      obtain ⟨_, rfl, rfl⟩ := h
      exact hbase
    · split at h
      · simp only [Option.some.injEq, Prod.mk.injEq] at h
        obtain ⟨_, rfl, rfl⟩ := h
        exact hbase
      · split at h
        · cases h
        · rename_i p2 hp2
          simp only [Option.some.injEq, Prod.mk.injEq] at h
          obtain ⟨_, rfl, rfl⟩ := h
          obtain ⟨h1, _, h3, h4, h5, _⟩ := enqueueJob_counters _ _ _ _ _ hp2
          rw [h1, h3, h4, h5]
          exact hbase

theorem workerTakeJob_counters (fuel : Nat) (priority : Bool) (pool : virThreadPool)
    (job : Nat) (pool2 : virThreadPool)
    (h : workerTakeJob fuel priority pool = some (job, pool2)) :
    pool2.nWorkers = pool.nWorkers ∧ pool2.nPrioWorkers = pool.nPrioWorkers ∧
    pool2.maxWorkers = pool.maxWorkers ∧ pool2.minWorkers = pool.minWorkers ∧
    pool2.quit = pool.quit ∧ pool2.freeWorkers = pool.freeWorkers := by
  unfold workerTakeJob at h
  simp only at h
  split at h
  · cases h
  · split at h
    · cases h
    · split at h
      · cases h
      · split at h
        · cases h
        · split at h
          · cases h
          · simp only [Option.some.injEq, Prod.mk.injEq] at h
            obtain ⟨_, rfl⟩ := h
            exact ⟨rfl, rfl, rfl, rfl, rfl, rfl⟩

theorem workerOut_counters (priority : Bool) (pool : virThreadPool) :
    (workerOut priority pool).nWorkers =
      (if priority then pool.nWorkers else sizeSub pool.nWorkers 1) ∧
    (workerOut priority pool).maxWorkers = pool.maxWorkers ∧
    (workerOut priority pool).minWorkers = pool.minWorkers ∧
    (workerOut priority pool).quit = pool.quit := by
  cases priority <;> simp [workerOut]

/-- The worker from the test of its loop: a worker that stays leaves the
counter alone, a worker that leaves found `quit` set and takes itself off
its counter. -/
theorem workerLoop_counters (fuel : Nat) (priority : Bool) (pool pool2 : virThreadPool)
    (r : Option WorkerPc) (h : workerLoop fuel priority pool = some (pool2, r)) :
    pool2.maxWorkers = pool.maxWorkers ∧ pool2.minWorkers = pool.minWorkers ∧
    pool2.quit = pool.quit ∧
    (r ≠ none → pool2.nWorkers = pool.nWorkers) ∧
    (r = none → pool.quit = true ∧
      pool2.nWorkers = (if priority then pool.nWorkers else sizeSub pool.nWorkers 1)) := by
  unfold workerLoop at h
  split at h
  · simp only [Option.some.injEq, Prod.mk.injEq] at h
    obtain ⟨rfl, rfl⟩ := h
    cases priority <;> simp
  · split at h
    · rename_i hq
      simp only [Option.some.injEq, Prod.mk.injEq] at h
      obtain ⟨rfl, rfl⟩ := h
      have := workerOut_counters priority pool
      exact ⟨this.2.1, this.2.2.1, this.2.2.2, fun hc => absurd rfl hc, fun _ => ⟨hq, this.1⟩⟩
    · cases ht : workerTakeJob fuel priority pool with
      | none => rw [ht] at h; cases h
      | some x =>
        obtain ⟨job, p1⟩ := x
        rw [ht] at h
        simp only [Option.map_some', Option.some.injEq, Prod.mk.injEq] at h
        obtain ⟨rfl, rfl⟩ := h
        obtain ⟨h1, _, h3, h4, h5, _⟩ := workerTakeJob_counters _ _ _ _ _ ht
        exact ⟨h3, h4, h5, fun _ => h1, fun hc => by cases hc⟩

/-- One section of a worker, on the counters. -/
theorem worker_counters (fuel : Nat) (condWaitOk priority : Bool) (pc : WorkerPc)
    (pool pool2 : virThreadPool) (r : Option WorkerPc)
    (h : virThreadPoolWorker fuel condWaitOk priority pc pool = some (pool2, r)) :
    pool2.maxWorkers = pool.maxWorkers ∧ pool2.minWorkers = pool.minWorkers ∧
    pool2.quit = pool.quit ∧
    (r ≠ none → pool2.nWorkers = pool.nWorkers) ∧
    (r = none → (condWaitOk = true → pool.quit = true) ∧
      pool2.nWorkers = (if priority then pool.nWorkers else sizeSub pool.nWorkers 1)) := by
  cases pc with
  | entry =>
    simp only [virThreadPoolWorker] at h
    obtain ⟨h1, h2, h3, h4, h5⟩ := workerLoop_counters _ _ _ _ _ h
    exact ⟨h1, h2, h3, h4, fun hr => ⟨fun _ => (h5 hr).1, (h5 hr).2⟩⟩
  | running job =>
    simp only [virThreadPoolWorker] at h
    obtain ⟨h1, h2, h3, h4, h5⟩ := workerLoop_counters _ _ _ _ _ h
    exact ⟨h1, h2, h3, h4, fun hr => ⟨fun _ => (h5 hr).1, (h5 hr).2⟩⟩
  | waiting =>
    cases condWaitOk with
    | true =>
      have hw : workerLoop fuel priority
          (if priority = true then pool
            else { pool with freeWorkers := sizeSub pool.freeWorkers 1 }) = some (pool2, r) := h
      have hc := workerLoop_counters _ _ _ _ _ hw
      have e1 : (if priority = true then pool
            else { pool with freeWorkers := sizeSub pool.freeWorkers 1 }).maxWorkers
            = pool.maxWorkers := by cases priority <;> simp
      have e2 : (if priority = true then pool
            else { pool with freeWorkers := sizeSub pool.freeWorkers 1 }).minWorkers
            = pool.minWorkers := by cases priority <;> simp
      have e3 : (if priority = true then pool
            else { pool with freeWorkers := sizeSub pool.freeWorkers 1 }).quit
            = pool.quit := by cases priority <;> simp
      have e4 : (if priority = true then pool
            else { pool with freeWorkers := sizeSub pool.freeWorkers 1 }).nWorkers
            = pool.nWorkers := by cases priority <;> simp
      rw [e1, e2, e3, e4] at hc
      exact ⟨hc.1, hc.2.1, hc.2.2.1, hc.2.2.2.1,
        fun hr => ⟨fun _ => (hc.2.2.2.2 hr).1, (hc.2.2.2.2 hr).2⟩⟩
    | false =>
      have hw : some (workerOut priority
          (if priority = true then pool
            else { pool with freeWorkers := sizeSub pool.freeWorkers 1 }), (none : Option WorkerPc))
          = some (pool2, r) := h
      have hp : pool2 = workerOut priority
          (if priority = true then pool
            else { pool with freeWorkers := sizeSub pool.freeWorkers 1 }) := by
        injection hw with hw; injection hw with hw1 hw2; exact hw1.symm
      have hr : r = none := by
        injection hw with hw; injection hw with hw1 hw2; exact hw2.symm
      have hc := workerOut_counters priority
        (if priority = true then pool
          else { pool with freeWorkers := sizeSub pool.freeWorkers 1 })
      have e1 : (if priority = true then pool
            else { pool with freeWorkers := sizeSub pool.freeWorkers 1 }).maxWorkers
            = pool.maxWorkers := by cases priority <;> simp
      have e2 : (if priority = true then pool
            else { pool with freeWorkers := sizeSub pool.freeWorkers 1 }).minWorkers
            = pool.minWorkers := by cases priority <;> simp
      have e3 : (if priority = true then pool
            else { pool with freeWorkers := sizeSub pool.freeWorkers 1 }).quit
            = pool.quit := by cases priority <;> simp
      have e4 : (if priority = true then pool
            else { pool with freeWorkers := sizeSub pool.freeWorkers 1 }).nWorkers
            = pool.nWorkers := by cases priority <;> simp
      rw [e1, e2, e3, e4, ← hp] at hc
      exact ⟨hc.2.1, hc.2.2.1, hc.2.2.2, fun hne => absurd hr hne,
          fun _ => ⟨(fun hcw => Bool.noConfusion hcw), hc.1⟩⟩

/-! ## The thread list -/

theorem ordinaryWorkers_append_replicate (workers : List Worker) (n : Nat) :
    ordinaryWorkers (workers ++ List.replicate n (Worker.mk false WorkerPc.entry)) =
      ordinaryWorkers workers + n := by
  unfold ordinaryWorkers
  rw [List.countP_append]
  congr 1
  induction n with
  | zero => rfl
  | succ n ih => rw [List.replicate_succ, List.countP_cons, ih]; simp

theorem ordinaryWorkers_append_prio (workers : List Worker) (n : Nat) :
    ordinaryWorkers (workers ++ List.replicate n (Worker.mk true WorkerPc.entry)) =
      ordinaryWorkers workers := by
  unfold ordinaryWorkers
  rw [List.countP_append]
  have : List.countP (fun w => !w.priority) (List.replicate n (Worker.mk true WorkerPc.entry))
      = 0 := by
    induction n with
    | zero => rfl
    | succ n ih => rw [List.replicate_succ, List.countP_cons, ih]; simp
  rw [this]; rfl

theorem ordinaryWorkers_set (workers : List Worker) :
    ∀ (idx : Nat) (w : Worker) (pc : WorkerPc), workers.get? idx = some w →
      ordinaryWorkers (workers.set idx ⟨w.priority, pc⟩) = ordinaryWorkers workers := by
  induction workers with
  | nil => intro idx w pc h; cases h
  | cons a l ih =>
    intro idx w pc h
    cases idx with
    | zero =>
      simp only [List.get?_cons_zero, Option.some.injEq] at h
      subst h
      simp [ordinaryWorkers, List.countP_cons]
    | succ idx =>
      simp only [List.get?_cons_succ] at h
      have := ih idx w pc h
      unfold ordinaryWorkers at this ⊢
      simp only [List.set_cons_succ, List.countP_cons, this]

theorem ordinaryWorkers_eraseIdx (workers : List Worker) :
    ∀ (idx : Nat) (w : Worker), workers.get? idx = some w →
      ordinaryWorkers (workers.eraseIdx idx) + (if w.priority then 0 else 1) =
        ordinaryWorkers workers := by
  induction workers with
  | nil => intro idx w h; cases h
  | cons a l ih =>
    intro idx w h
    cases idx with
    | zero =>
      simp only [List.get?_cons_zero, Option.some.injEq] at h
      subst h
      cases hp : a.priority <;> simp [ordinaryWorkers, List.countP_cons, hp]
    | succ idx =>
      simp only [List.get?_cons_succ] at h
      have := ih idx w h
      unfold ordinaryWorkers at this ⊢
      simp only [List.eraseIdx_cons_succ, List.countP_cons]
      omega

/-! ## The counter invariant along the events -/

/-- An expansion that does not fail has added `gain` to the counter of its
class and started `gain` threads. -/
theorem expand_ok (env : ExpandEnv) (pool : virThreadPool) (gain : Nat) (priority : Bool)
    (hret : ¬ (virThreadPoolExpand env pool gain priority).1 < 0) :
    (virThreadPoolExpand env pool gain priority).2.1 =
      setCurWorkers pool priority (sizeAdd (curWorkers pool priority) gain) ∧
    (virThreadPoolExpand env pool gain priority).2.2 = gain := by
  unfold virThreadPoolExpand at hret ⊢
  by_cases hg : env.growOk = false
  · rw [if_pos hg] at hret
    exact absurd (show ((-1 : Int), pool, 0).1 < 0 by simp) hret
  · rw [if_neg hg] at hret ⊢
    simp only at hret ⊢
    split
    · exact ⟨rfl, rfl⟩
    · rename_i i hloop
      rw [hloop] at hret
      simp at hret

/-- A pool that came out of the constructor satisfies the counter
invariant, holds the clamped `minWorkers` and has exactly that many ordinary
workers. -/
theorem newFull_counters (env : NewEnv) (minWorkers maxWorkers prioWorkers : Nat) (s : Sys)
    (hmax : maxWorkers < SIZE_MOD)
    (h : virThreadPoolNewFull env minWorkers maxWorkers prioWorkers = some s) :
    CountersOk s ∧ s.pool.maxWorkers = maxWorkers ∧
    s.pool.minWorkers = min minWorkers maxWorkers ∧ s.pool.nWorkers = s.pool.minWorkers ∧
    s.pool.quit = false := by
  have hclamp : (if minWorkers > maxWorkers then maxWorkers else minWorkers) =
      min minWorkers maxWorkers := by
    split
    · rw [Nat.min_eq_right (by omega)]
    · rw [Nat.min_eq_left (by omega)]
  have hminle : min minWorkers maxWorkers ≤ maxWorkers := Nat.min_le_right _ _
  unfold virThreadPoolNewFull at h
  simp only [hclamp] at h
  split at h
  · cases h
  · split at h
    · cases h
    · split at h
      · cases h
      · split at h
        · cases h
        · split at h
          · cases h
          · rename_i hret
            obtain ⟨hp1, hst⟩ := expand_ok _ _ _ _ hret
            rw [hp1, hst] at h
            have hn1 : sizeAdd 0 (min minWorkers maxWorkers) = min minWorkers maxWorkers :=
              (sizeAdd_of_lt _ _ (by omega)).trans (Nat.zero_add _)
            have hord : ordinaryWorkers
                (List.replicate (min minWorkers maxWorkers) (Worker.mk false WorkerPc.entry)) =
                min minWorkers maxWorkers := by
              have := ordinaryWorkers_append_replicate [] (min minWorkers maxWorkers)
              simp only [List.nil_append] at this
              rw [this]
              simp [ordinaryWorkers]
            split at h
            · split at h
              · cases h
              · split at h
                · cases h
                · rename_i hret2
                  obtain ⟨hp2, _⟩ := expand_ok _ _ _ _ hret2
                  rw [hp2] at h
                  simp only [Option.some.injEq] at h
                  subst h
                  refine ⟨⟨?_, ?_, ?_⟩, ?_, ?_, ?_, ?_⟩
                  · show ordinaryWorkers (_ ++ _) = _
                    rw [ordinaryWorkers_append_prio, hord]
                    simp [setCurWorkers, curWorkers, zeroPool, hn1]
                  · simp [setCurWorkers, curWorkers, zeroPool, hn1]
                  · simpa [setCurWorkers, curWorkers, zeroPool] using hmax
                  · simp [setCurWorkers, curWorkers, zeroPool]
                  · simp [setCurWorkers, curWorkers, zeroPool]
                  · simp [setCurWorkers, curWorkers, zeroPool, hn1]
                  · simp [setCurWorkers, curWorkers, zeroPool]
            · simp only [Option.some.injEq] at h
              subst h
              refine ⟨⟨?_, ?_, ?_⟩, ?_, ?_, ?_, ?_⟩
              · show ordinaryWorkers _ = _
                rw [hord]
                simp [setCurWorkers, curWorkers, zeroPool, hn1]
              · simp [setCurWorkers, curWorkers, zeroPool, hn1]
              · simpa [setCurWorkers, curWorkers, zeroPool] using hmax
              · simp [setCurWorkers, curWorkers, zeroPool]
              · simp [setCurWorkers, curWorkers, zeroPool]
              · simp [setCurWorkers, curWorkers, zeroPool, hn1]
              · simp [setCurWorkers, curWorkers, zeroPool]

/-- Every event keeps the counter invariant and the two bounds; `quit` is
never unset; while `quit` is unset `nWorkers` does not go down unless a
condition wait fails. -/
theorem sysStep_counters (s s2 : Sys) (e : PoolEvent) (hinv : CountersOk s)
    (h : sysStep s e = some s2) :
    CountersOk s2 ∧ s2.pool.maxWorkers = s.pool.maxWorkers ∧
    s2.pool.minWorkers = s.pool.minWorkers ∧
    (s.pool.quit = true → s2.pool.quit = true) ∧
    (e.condWaitFails = false → s2.pool.quit = false → s.pool.nWorkers ≤ s2.pool.nWorkers) := by
  obtain ⟨hcount, hle, hmax⟩ := hinv
  cases e with
  | sendJob env priority data =>
    simp only [sysStep] at h
    split at h
    · split at h
      · cases h
      · rename_i ret pool1 started heq
        simp only [Option.some.injEq] at h
        subst h
        obtain ⟨h1, h2, h3, h4, h5⟩ :=
          sendJob_counters env s.pool priority data ret pool1 started hle hmax heq
        refine ⟨⟨?_, h2, by rw [h3]; exact hmax⟩, h3, h4, fun hq => by rw [h5]; exact hq,
          fun _ _ => by rw [h1]; omega⟩
        show ordinaryWorkers (s.workers ++ _) = pool1.nWorkers
        rw [ordinaryWorkers_append_replicate, hcount, h1]
    · cases h
  | worker idx fuel condWaitOk =>
    simp only [sysStep] at h
    split at h
    · cases h
    · rename_i w hw
      split at h
      · cases h
      · rename_i pool1 pc1 heq
        simp only [Option.some.injEq] at h
        subst h
        obtain ⟨h1, h2, h3, h4, _⟩ := worker_counters _ _ _ _ _ _ _ heq
        have hn := h4 (by simp)
        refine ⟨⟨?_, by rw [hn, h1]; exact hle, by rw [h1]; exact hmax⟩, h1, h2,
          fun hq => by rw [h3]; exact hq, fun _ _ => by rw [hn]⟩
        show ordinaryWorkers (s.workers.set idx _) = pool1.nWorkers
        rw [ordinaryWorkers_set _ _ _ _ hw, hcount, hn]
      · rename_i pool1 heq
        simp only [Option.some.injEq] at h
        subst h
        obtain ⟨h1, h2, h3, _, h5⟩ := worker_counters _ _ _ _ _ _ _ heq
        obtain ⟨hquit, hn⟩ := h5 rfl
        have herase := ordinaryWorkers_eraseIdx s.workers idx w hw
        have hcnt : ordinaryWorkers (s.workers.eraseIdx idx) = pool1.nWorkers ∧
            pool1.nWorkers ≤ s.pool.nWorkers := by
          cases hp : w.priority with
          | true =>
            rw [hp] at hn herase
            simp only [if_true, Nat.add_zero] at hn herase
            rw [herase, hn, hcount]
            exact ⟨rfl, le_rfl⟩
          | false =>
            rw [hp] at hn herase
            simp only [Bool.false_eq_true, if_false] at hn herase
            have hpos : 1 ≤ s.pool.nWorkers := by omega
            rw [sizeSub_of_le _ 1 hpos (by omega)] at hn
            rw [hn]
            omega
        have hle2 : pool1.nWorkers ≤ pool1.maxWorkers := by
          rw [h1]; exact le_trans hcnt.2 hle
        refine ⟨⟨hcnt.1, hle2, by rw [h1]; exact hmax⟩, h1, h2,
          fun hq => by rw [h3]; exact hq, ?_⟩
        intro hnofail hq2
        have hok : condWaitOk = true := by
          simpa [PoolEvent.condWaitFails] using hnofail
        have := hquit hok
        rw [h3, this] at hq2
        cases hq2
  | free =>
    simp only [sysStep, Option.some.injEq] at h
    subst h
    exact ⟨⟨hcount, hle, hmax⟩, rfl, rfl, fun _ => rfl, fun _ hq => by
      simp [virThreadPoolFreeSetQuit] at hq⟩

/-- Along any sequence of events the counter invariant and the two bounds
are kept, `quit` is never unset, and while `quit` is unset and no condition
wait fails `nWorkers` does not go down. -/
theorem sysRun_counters (events : List PoolEvent) :
    ∀ (s s2 : Sys), CountersOk s → sysRun s events = some s2 →
      CountersOk s2 ∧ s2.pool.maxWorkers = s.pool.maxWorkers ∧
      s2.pool.minWorkers = s.pool.minWorkers ∧
      (s.pool.quit = true → s2.pool.quit = true) ∧
      ((∀ e ∈ events, e.condWaitFails = false) → s2.pool.quit = false →
        s.pool.nWorkers ≤ s2.pool.nWorkers) := by
  induction events with
  | nil =>
    intro s s2 hinv h
    simp only [sysRun, Option.some.injEq] at h
    subst h
    exact ⟨hinv, rfl, rfl, fun h => h, fun _ _ => le_rfl⟩
  | cons e es ih =>
    intro s s2 hinv h
    simp only [sysRun] at h
    cases hs : sysStep s e with
    | none => rw [hs] at h; cases h
    | some s1 =>
      rw [hs] at h
      simp only at h
      obtain ⟨hinv1, hmax1, hmin1, hq1, hn1⟩ := sysStep_counters s s1 e hinv hs
      obtain ⟨hinv2, hmax2, hmin2, hq2, hn2⟩ := ih s1 s2 hinv1 h
      refine ⟨hinv2, hmax2.trans hmax1, hmin2.trans hmin1, fun hq => hq2 (hq1 hq), ?_⟩
      intro hnofail hquit
      have hquit1 : s1.pool.quit = false := by
        by_contra hc
        have : s1.pool.quit = true := by simpa using hc
        rw [hq2 this] at hquit
        cases hquit
      have h1 := hn1 (hnofail e (List.mem_cons_self _ _)) hquit1
      have h2 := hn2 (fun e2 he2 => hnofail e2 (List.mem_cons_of_mem _ he2)) hquit
      exact le_trans h1 h2


/-! ## The claims -/

theorem examplePool_wellFormed : WellFormed examplePool [1, 2, 3] := by
  refine ⟨⟨?_, by decide, ?_⟩, rfl, ?_⟩
  · simp [dlseg, examplePool]
  · intro a ha
    simp at ha
    rcases ha with rfl | rfl | rfl <;> simp [SIZE_MOD]
  · simp [oldestPrio, prioAt, examplePool]

/-- C1: once `quit` is set, `virThreadPoolSendJob` returns -1 for every
priority, data and environment, starts no worker and leaves the whole pool
(queue, `jobQueueDepth`, `nWorkers`, `nPrioWorkers` and the heap of job
records) as it was. -/
theorem sendJob_after_quit (env : SendEnv) (pool : virThreadPool) (priority data : Nat)
    (hquit : pool.quit = true) :
    virThreadPoolSendJob env pool priority data = some (-1, pool, 0) := by
  simp [virThreadPoolSendJob, hquit]

theorem sendJob_after_quit_witness :
    ({ examplePool with quit := true } : virThreadPool).quit = true ∧
    virThreadPoolSendJob (okSendEnv 4) { examplePool with quit := true } 1 68 =
      some (-1, { examplePool with quit := true }, 0) :=
  ⟨rfl, sendJob_after_quit (okSendEnv 4) { examplePool with quit := true } 1 68 rfl⟩

/-- C2: on a pool with `quit` unset whose pending jobs are the well-formed
list `l`, counted by `jobQueueDepth`, a call of `virThreadPoolSendJob` that
returns 0 leaves the queue `l` followed by one new record, the old jobs with
their payload and order and the new one with the priority and data given;
`jobQueueDepth` is one more than before; `firstPrio` is the new record if
the priority is above zero and `firstPrio` was `NULL`, and is unchanged
otherwise. -/
theorem sendJob_enqueues (env : SendEnv) (pool : virThreadPool) (priority data : Nat)
    (l : List Nat) (pool2 : virThreadPool) (started : Nat)
    (hquit : pool.quit = false) (hl : IsQueue pool l)
    (hdepth : pool.jobQueueDepth = l.length)
    (hfresh : FreshAlloc pool.mem env.jobAlloc)
    (h : virThreadPoolSendJob env pool priority data = some (0, pool2, started)) :
    ∃ job, IsQueue pool2 (l ++ [job]) ∧
      jobsOf pool2.mem (l ++ [job]) = jobsOf pool.mem l ++ [(priority, data)] ∧
      pool2.jobQueueDepth = pool.jobQueueDepth + 1 ∧
      pool2.jobList.firstPrio =
        (if 0 < priority ∧ pool.jobList.firstPrio = 0 then job else pool.jobList.firstPrio) := by
  obtain ⟨job, hjob, henq⟩ := sendJob_inv env pool priority data pool2 started hquit h
  have hsame := sendJobExpand_same env.expand pool
  have hl1 := isQueue_of_same _ _ _ hsame hl
  obtain ⟨hj0, hjb, hjm⟩ := hfresh job hjob
  have hmemeq : (sendJobExpand env.expand pool).2.1.mem = pool.mem := hsame.2.2.2.2.2.2
  have hjm1 : (sendJobExpand env.expand pool).2.1.mem job = none := by
    rw [hmemeq]; exact hjm
  obtain ⟨p2, hp2, hq2, hjobs, _, _, _, _, hd, hfirst, _⟩ :=
    enqueueJob_spec _ l job priority data hl1 hj0 hjb hjm1
  rw [henq] at hp2
  cases hp2
  refine ⟨job, hq2, ?_, ?_, ?_⟩
  · rw [hjobs, hmemeq]
  · rw [hd, hsame.2.2.1, hdepth]
    have := isQueue_length _ _ hq2
    rw [List.length_append, List.length_singleton] at this
    exact sizeAdd_of_lt _ _ this
  · rw [hfirst, hsame.2.1]
    simp only [Nat.pos_iff_ne_zero]

theorem sendJob_enqueues_witness :
    ∃ job, IsQueue
        { examplePool with
            jobList := ⟨1, 4, 3⟩, jobQueueDepth := 4,
            mem := store (store examplePool.mem 4 ⟨3, 0, 2, 68⟩) 3 ⟨2, 4, 1, 67⟩ }
        ([1, 2, 3] ++ [job]) ∧
      jobsOf (store (store examplePool.mem 4 ⟨3, 0, 2, 68⟩) 3 ⟨2, 4, 1, 67⟩) ([1, 2, 3] ++ [job]) =
        jobsOf examplePool.mem [1, 2, 3] ++ [(2, 68)] ∧
      (4 : Nat) = examplePool.jobQueueDepth + 1 ∧
      (3 : Nat) = (if 0 < 2 ∧ examplePool.jobList.firstPrio = 0 then job
        else examplePool.jobList.firstPrio) :=
  sendJob_enqueues (okSendEnv 4) examplePool 2 68 [1, 2, 3] _ 0 rfl examplePool_wellFormed.1 rfl
    (by decide) (by rfl)

/-- An empty queue with depth zero and no `firstPrio` satisfies the queue
invariants. -/
theorem wellFormed_empty (pool : virThreadPool) (hlist : pool.jobList = ⟨0, 0, 0⟩)
    (hdepth : pool.jobQueueDepth = 0) : WellFormed pool [] := by
  refine ⟨⟨?_, List.nodup_nil, fun a ha => by cases ha⟩, by simpa using hdepth, ?_⟩
  · rw [dlseg_nil, hlist]; exact ⟨rfl, rfl⟩
  · rw [hlist]; rfl

/-- C3: from an empty queue, after any interleaving of successful
submissions and removals by ordinary workers, the data the job function was
called on, in call order, followed by the data of the jobs still pending, in
queue order, is the data submitted, in submission order: the removed jobs
are a leading part of the submitted ones and the pending jobs are the rest.
And an ordinary worker that finds the queue not empty does get the job at
`head` and leaves the jobs behind it. -/
theorem ordinary_stream_fifo (pool0 : virThreadPool) (ops : List QueueOp)
    (pool : virThreadPool) (obs : List QueueObs)
    (hlist : pool0.jobList = ⟨0, 0, 0⟩) (hdepth : pool0.jobQueueDepth = 0)
    (hord : ∀ op ∈ ops, op.isOrdinary = true)
    (hrun : queueRun pool0 ops = some (pool, obs)) :
    ∃ l, IsQueue pool l ∧
      submittedData obs = ranData obs ++ pendingData pool l ∧
      (l ≠ [] → ∃ pool2 d rest,
        queueStep pool (QueueOp.takeOrdinary l.length) = some (pool2, QueueObs.ran false d) ∧
        IsQueue pool2 rest ∧ pendingData pool l = d :: pendingData pool2 rest) := by
  have hwf0 := wellFormed_empty pool0 hlist hdepth
  obtain ⟨l, hwf, _, heq, hnil, hquit⟩ := queueRun_inv ops pool0 [] pool obs hwf0 hrun
  refine ⟨l, hwf.1, by simpa [pendingData] using heq hord, ?_⟩
  intro hl
  have hops : ops ≠ [] := fun h => hl (hnil h)
  have hq := hquit hops
  have hhead : pool.jobList.head ≠ 0 := by
    rcases isQueue_head pool l hwf.1 with ⟨h, _⟩ | ⟨_, _, h⟩
    · exact absurd h hl
    · exact h
  obtain ⟨rest, pool2, hlr, hrun2, hwf2, hpay, _⟩ :=
    wellFormed_takeOrdinary l.length pool l hwf hq hhead le_rfl
  refine ⟨pool2, dataAt pool.mem pool.jobList.head, rest, hrun2, hwf2.1, ?_⟩
  rw [pendingData_congr pool pool2 rest (fun a ha => (hpay a ha).2)]
  conv_lhs => rw [hlr]
  simp [pendingData]

theorem ordinary_stream_fifo_witness :
    queueRunObs zeroPool exampleInterleaving =
        [QueueObs.submitted 65, QueueObs.submitted 66, QueueObs.ran false 65,
          QueueObs.submitted 67, QueueObs.ran false 66] ∧
    ∃ l, IsQueue (queueRunPool zeroPool exampleInterleaving) l ∧
      submittedData (queueRunObs zeroPool exampleInterleaving) =
        ranData (queueRunObs zeroPool exampleInterleaving) ++
          pendingData (queueRunPool zeroPool exampleInterleaving) l ∧
      (l ≠ [] → ∃ pool2 d rest,
        queueStep (queueRunPool zeroPool exampleInterleaving) (QueueOp.takeOrdinary l.length) =
          some (pool2, QueueObs.ran false d) ∧
        IsQueue pool2 rest ∧
        pendingData (queueRunPool zeroPool exampleInterleaving) l = d :: pendingData pool2 rest) :=
  ⟨by decide,
   ordinary_stream_fifo zeroPool exampleInterleaving (queueRunPool zeroPool exampleInterleaving)
    (queueRunObs zeroPool exampleInterleaving) rfl rfl (by decide) (by rfl)⟩

/-- C4: on a well-formed queue `l` (so `firstPrio` is its oldest job with a
priority above zero) that holds such a job, the priority branch of
`virThreadPoolWorker` returns that job, wherever it stands: `l` is
`pre ++ job :: post` with only priority zero in `pre`.  The queue left is
`pre ++ post` with the payloads as before, `jobQueueDepth` is one less, and
`firstPrio` is the first job of `post` with a priority above zero, or `NULL`
if `post` has none.  Consequently, with `quit` unset, priority workers that
keep taking jobs run the jobs with a priority above zero in queue order and
leave the jobs of priority zero in their order. -/
theorem priority_removal (fuel : Nat) (pool : virThreadPool) (l : List Nat)
    (hwf : WellFormed pool l) (hprio : ∃ a ∈ l, 0 < prioAt pool.mem a)
    (hfuel : l.length ≤ fuel) :
    (∃ pre job post pool2, l = pre ++ job :: post ∧
      (∀ a ∈ pre, prioAt pool.mem a = 0) ∧ 0 < prioAt pool.mem job ∧
      workerTakeJob fuel true pool = some (job, pool2) ∧
      IsQueue pool2 (pre ++ post) ∧
      jobsOf pool2.mem (pre ++ post) = jobsOf pool.mem (pre ++ post) ∧
      pool2.jobQueueDepth + 1 = pool.jobQueueDepth ∧
      ((pool2.jobList.firstPrio = 0 ∧ ∀ a ∈ post, prioAt pool.mem a = 0) ∨
        ∃ mid rest, post = mid ++ pool2.jobList.firstPrio :: rest ∧
          (∀ a ∈ mid, prioAt pool.mem a = 0) ∧ 0 < prioAt pool.mem pool2.jobList.firstPrio)) ∧
    (pool.quit = false →
      ∃ pool3,
        queueRun pool
            (List.replicate (prioJobs pool.mem l).length (QueueOp.takePriority fuel)) =
          some (pool3,
            (prioJobs pool.mem l).map (fun a => QueueObs.ran true (dataAt pool.mem a))) ∧
        IsQueue pool3 (plainJobs pool.mem l) ∧
        jobsOf pool3.mem (plainJobs pool.mem l) = jobsOf pool.mem (plainJobs pool.mem l)) := by
  constructor
  · have hne : oldestPrio pool.mem l ≠ 0 := by
      intro h0
      rw [oldestPrio_eq_zero_iff _ _ (isQueue_nonzero _ _ hwf.1)] at h0
      obtain ⟨a, ha, hp⟩ := hprio
      rw [h0 a ha] at hp
      exact absurd hp (lt_irrefl 0)
    obtain ⟨pre, post, hl, hpre, hp⟩ := oldestPrio_split pool.mem l hne
    rw [← hwf.2.2] at hl hp
    have hq : IsQueue pool (pre ++ pool.jobList.firstPrio :: post) := by rw [← hl]; exact hwf.1
    have hfuel2 : post.length ≤ fuel := by
      rw [hl, List.length_append, List.length_cons] at hfuel; omega
    obtain ⟨pool2, htake, hq2, hpay, _, _, hdepth, hfirst, _⟩ :=
      workerTakeJob_spec fuel true pool pre post pool.jobList.firstPrio hq (by simp) hfuel2
    have hjnot : ∀ a, a ∈ pre ++ post → a ≠ pool.jobList.firstPrio := by
      have hnd := hq.2.1
      rw [List.nodup_append] at hnd
      intro a hin e
      rw [e] at hin
      rcases List.mem_append.1 hin with h | h
      · exact hnd.2.2 h (List.mem_cons_self _ _)
      · exact (List.nodup_cons.1 hnd.2.1).1 h
    refine ⟨pre, pool.jobList.firstPrio, post, pool2, hl, hpre, Nat.pos_of_ne_zero hp, htake,
      hq2, ?_, ?_, ?_⟩
    · exact jobsOf_congr _ _ _ (fun a ha => hpay a (hjnot a ha))
    · have hlen := isQueue_length _ _ hwf.1
      have h1 : 1 ≤ l.length := by
        rw [hl, List.length_append, List.length_cons]; omega
      rw [hdepth, hwf.2.1, sizeSub_of_le _ 1 h1 hlen]
      omega
    · rw [if_pos rfl] at hfirst
      have hpost0 : ∀ a ∈ post, a ≠ 0 := fun a ha =>
        isQueue_nonzero _ _ hwf.1 a (by rw [hl]; simp [ha])
      by_cases h0 : oldestPrio pool.mem post = 0
      · left
        exact ⟨by rw [hfirst, h0], (oldestPrio_eq_zero_iff _ _ hpost0).1 h0⟩
      · right
        obtain ⟨mid, rest, hpost, hmid, hpr⟩ := oldestPrio_split pool.mem post h0
        rw [hfirst]
        exact ⟨mid, rest, hpost, hmid, Nat.pos_of_ne_zero hpr⟩
  · intro hq
    obtain ⟨pool3, hrun, hwf3, hpay⟩ :=
      drain_priority fuel (prioJobs pool.mem l).length pool l hwf hq hfuel rfl
    exact ⟨pool3, hrun, hwf3.1, jobsOf_congr _ _ _ hpay⟩

theorem priority_removal_witness :
    (queueRun zeroPool exampleSubmits).map (fun r => jobsOf r.1.mem [1, 2, 3]) =
        some [(0, 65), (0, 66), (1, 67)] ∧
    (queueRun examplePool
        [QueueOp.takePriority 3, QueueOp.takeOrdinary 3, QueueOp.takeOrdinary 3]).map
          (fun r => r.2) =
        some [QueueObs.ran true 67, QueueObs.ran false 65, QueueObs.ran false 66] ∧
    (workerTakeJob 3 true examplePool).map (fun r => r.1) = some 3 ∧
    (∃ pre job post pool2, [1, 2, 3] = pre ++ job :: post ∧
      (∀ a ∈ pre, prioAt examplePool.mem a = 0) ∧ 0 < prioAt examplePool.mem job ∧
      workerTakeJob 3 true examplePool = some (job, pool2) ∧
      IsQueue pool2 (pre ++ post) ∧
      jobsOf pool2.mem (pre ++ post) = jobsOf examplePool.mem (pre ++ post) ∧
      pool2.jobQueueDepth + 1 = examplePool.jobQueueDepth ∧
      ((pool2.jobList.firstPrio = 0 ∧ ∀ a ∈ post, prioAt examplePool.mem a = 0) ∨
        ∃ mid rest, post = mid ++ pool2.jobList.firstPrio :: rest ∧
          (∀ a ∈ mid, prioAt examplePool.mem a = 0) ∧
          0 < prioAt examplePool.mem pool2.jobList.firstPrio)) ∧
    (examplePool.quit = false →
      ∃ pool3,
        queueRun examplePool
            (List.replicate (prioJobs examplePool.mem [1, 2, 3]).length
              (QueueOp.takePriority 3)) =
          some (pool3,
            (prioJobs examplePool.mem [1, 2, 3]).map
              (fun a => QueueObs.ran true (dataAt examplePool.mem a))) ∧
        IsQueue pool3 (plainJobs examplePool.mem [1, 2, 3]) ∧
        jobsOf pool3.mem (plainJobs examplePool.mem [1, 2, 3]) =
          jobsOf examplePool.mem (plainJobs examplePool.mem [1, 2, 3])) :=
  ⟨by decide, by decide, by decide,
   priority_removal 3 examplePool [1, 2, 3] examplePool_wellFormed
    ⟨3, by decide, by decide⟩ (by decide)⟩

/-- C5: in every state reached from a fresh pool (empty queue, depth 0,
`firstPrio` `NULL`) by successful submissions, removals by ordinary workers
and removals by priority workers, the pending jobs form a well-formed list
`l`, `jobQueueDepth` is the length of `l`, `firstPrio` is `NULL` exactly
when no pending job has a priority above zero, and otherwise `firstPrio` is
a pending job with a priority above zero before which all pending jobs have
priority zero. -/
theorem queue_accounting (pool0 : virThreadPool) (ops : List QueueOp)
    (pool : virThreadPool) (obs : List QueueObs)
    (hlist : pool0.jobList = ⟨0, 0, 0⟩) (hdepth : pool0.jobQueueDepth = 0)
    (hrun : queueRun pool0 ops = some (pool, obs)) :
    ∃ l, IsQueue pool l ∧ pool.jobQueueDepth = l.length ∧
      (pool.jobList.firstPrio = 0 ↔ ∀ a ∈ l, prioAt pool.mem a = 0) ∧
      (pool.jobList.firstPrio ≠ 0 →
        ∃ pre post, l = pre ++ pool.jobList.firstPrio :: post ∧
          (∀ a ∈ pre, prioAt pool.mem a = 0) ∧ 0 < prioAt pool.mem pool.jobList.firstPrio) := by
  have hwf0 := wellFormed_empty pool0 hlist hdepth
  obtain ⟨l, hwf, _⟩ := queueRun_inv ops pool0 [] pool obs hwf0 hrun
  refine ⟨l, hwf.1, hwf.2.1, ?_, ?_⟩
  · rw [hwf.2.2]
    exact oldestPrio_eq_zero_iff _ _ (isQueue_nonzero _ _ hwf.1)
  · intro hne
    rw [hwf.2.2] at hne ⊢
    obtain ⟨pre, post, hl, hpre, hp⟩ := oldestPrio_split pool.mem l hne
    exact ⟨pre, post, hl, hpre, Nat.pos_of_ne_zero hp⟩

theorem queue_accounting_witness :
    ∃ l, IsQueue (queueRunPool zeroPool (exampleSubmits ++ [QueueOp.takeOrdinary 0])) l ∧
      (queueRunPool zeroPool (exampleSubmits ++ [QueueOp.takeOrdinary 0])).jobQueueDepth =
        l.length ∧
      ((queueRunPool zeroPool (exampleSubmits ++ [QueueOp.takeOrdinary 0])).jobList.firstPrio = 0 ↔
        ∀ a ∈ l,
          prioAt (queueRunPool zeroPool (exampleSubmits ++ [QueueOp.takeOrdinary 0])).mem a = 0) ∧
      ((queueRunPool zeroPool (exampleSubmits ++ [QueueOp.takeOrdinary 0])).jobList.firstPrio ≠ 0 →
        ∃ pre post,
          l = pre ++
            (queueRunPool zeroPool
              (exampleSubmits ++ [QueueOp.takeOrdinary 0])).jobList.firstPrio :: post ∧
          (∀ a ∈ pre,
            prioAt (queueRunPool zeroPool (exampleSubmits ++ [QueueOp.takeOrdinary 0])).mem a = 0) ∧
          0 < prioAt (queueRunPool zeroPool (exampleSubmits ++ [QueueOp.takeOrdinary 0])).mem
            (queueRunPool zeroPool
              (exampleSubmits ++ [QueueOp.takeOrdinary 0])).jobList.firstPrio) :=
  queue_accounting zeroPool (exampleSubmits ++ [QueueOp.takeOrdinary 0])
    (queueRunPool zeroPool (exampleSubmits ++ [QueueOp.takeOrdinary 0]))
    (queueRunObs zeroPool (exampleSubmits ++ [QueueOp.takeOrdinary 0])) rfl rfl (by rfl)

/-- C6: from an empty queue, after any sequence of successful submissions
and removals by workers of either class, the multiset of the data submitted
is the multiset of the data the job function was called on plus the multiset
of the data still pending; so with an empty queue (`head` is `NULL`) the job
function was called on exactly the multiset submitted.  And a worker that
takes a job from the state reached leaves a queue that no longer holds the
record it runs. -/
theorem no_job_lost_or_rerun (pool0 : virThreadPool) (ops : List QueueOp)
    (pool : virThreadPool) (obs : List QueueObs)
    (hlist : pool0.jobList = ⟨0, 0, 0⟩) (hdepth : pool0.jobQueueDepth = 0)
    (hrun : queueRun pool0 ops = some (pool, obs)) :
    ∃ l, IsQueue pool l ∧
      (↑(submittedData obs) : Multiset Nat) = ↑(ranData obs) + ↑(pendingData pool l) ∧
      (pool.jobList.head = 0 → (↑(ranData obs) : Multiset Nat) = ↑(submittedData obs)) ∧
      (∀ fuel priority pool2 o, workerRunsJob fuel priority pool = some (pool2, o) →
        ∃ pre job post, l = pre ++ job :: post ∧ o = QueueObs.ran priority (dataAt pool.mem job) ∧
          IsQueue pool2 (pre ++ post) ∧ job ∉ pre ++ post ∧ pool2.mem job = none) := by
  have hwf0 := wellFormed_empty pool0 hlist hdepth
  obtain ⟨l, hwf, hperm, _⟩ := queueRun_inv ops pool0 [] pool obs hwf0 hrun
  have hperm2 : (submittedData obs).Perm (ranData obs ++ pendingData pool l) := by
    simpa [pendingData] using hperm
  have hms : (↑(submittedData obs) : Multiset Nat) = ↑(ranData obs) + ↑(pendingData pool l) := by
    rw [Multiset.coe_add]
    exact Multiset.coe_eq_coe.2 hperm2
  refine ⟨l, hwf.1, hms, ?_, ?_⟩
  · intro hhead
    rcases isQueue_head pool l hwf.1 with ⟨hl, _⟩ | ⟨_, _, h⟩
    · rw [hms, hl]; simp [pendingData]
    · exact absurd hhead h
  · intro fuel priority pool2 o hstep
    obtain ⟨pre, job, post, hl, _, ho, hwf2, _, _, hfreed⟩ :=
      wellFormed_runsJob_inv fuel priority pool l pool2 o hwf hstep
    have hnd := hwf.1.2.1
    rw [hl, List.nodup_append] at hnd
    have hjnot : job ∉ pre ++ post := by
      intro hin
      rcases List.mem_append.1 hin with h | h
      · exact hnd.2.2 h (List.mem_cons_self _ _)
      · exact (List.nodup_cons.1 hnd.2.1).1 h
    exact ⟨pre, job, post, hl, ho, hwf2.1, hjnot, hfreed⟩

theorem no_job_lost_or_rerun_witness :
    queueRunObs zeroPool (exampleSubmits ++ [QueueOp.takePriority 3, QueueOp.takeOrdinary 0]) =
        [QueueObs.submitted 65, QueueObs.submitted 66, QueueObs.submitted 67,
          QueueObs.ran true 67, QueueObs.ran false 65] ∧
    ∃ l, IsQueue
        (queueRunPool zeroPool
          (exampleSubmits ++ [QueueOp.takePriority 3, QueueOp.takeOrdinary 0])) l ∧
      (↑(submittedData (queueRunObs zeroPool
          (exampleSubmits ++ [QueueOp.takePriority 3, QueueOp.takeOrdinary 0]))) : Multiset Nat) =
        ↑(ranData (queueRunObs zeroPool
          (exampleSubmits ++ [QueueOp.takePriority 3, QueueOp.takeOrdinary 0]))) +
        ↑(pendingData (queueRunPool zeroPool
          (exampleSubmits ++ [QueueOp.takePriority 3, QueueOp.takeOrdinary 0])) l) ∧
      ((queueRunPool zeroPool
          (exampleSubmits ++ [QueueOp.takePriority 3, QueueOp.takeOrdinary 0])).jobList.head = 0 →
        (↑(ranData (queueRunObs zeroPool
          (exampleSubmits ++ [QueueOp.takePriority 3, QueueOp.takeOrdinary 0]))) : Multiset Nat) =
        ↑(submittedData (queueRunObs zeroPool
          (exampleSubmits ++ [QueueOp.takePriority 3, QueueOp.takeOrdinary 0])))) ∧
      (∀ fuel priority pool2 o,
        workerRunsJob fuel priority
          (queueRunPool zeroPool
            (exampleSubmits ++ [QueueOp.takePriority 3, QueueOp.takeOrdinary 0])) =
          some (pool2, o) →
        ∃ pre job post, l = pre ++ job :: post ∧
          o = QueueObs.ran priority
            (dataAt (queueRunPool zeroPool
              (exampleSubmits ++ [QueueOp.takePriority 3, QueueOp.takeOrdinary 0])).mem job) ∧
          IsQueue pool2 (pre ++ post) ∧ job ∉ pre ++ post ∧ pool2.mem job = none) :=
  ⟨by decide,
   no_job_lost_or_rerun zeroPool
    (exampleSubmits ++ [QueueOp.takePriority 3, QueueOp.takeOrdinary 0])
    (queueRunPool zeroPool (exampleSubmits ++ [QueueOp.takePriority 3, QueueOp.takeOrdinary 0]))
    (queueRunObs zeroPool (exampleSubmits ++ [QueueOp.takePriority 3, QueueOp.takeOrdinary 0]))
    rfl rfl (by rfl)⟩

/-- C7: the test `freeWorkers - jobQueueDepth <= 0`, evaluated on `size_t`,
does not agree with `freeWorkers <= jobQueueDepth`.  On `backlogPool`
(`quit` unset, `freeWorkers` 0, `jobQueueDepth` 1, `nWorkers` 1,
`maxWorkers` 2) the difference wraps to `2 ^ 64 - 1`, so a submission whose
spawn would succeed returns 0 without trying to spawn: no thread is started
and `nWorkers` stays 1. -/
theorem sendJob_backlog_no_expansion :
    backlogPool.quit = false ∧ backlogPool.freeWorkers = 0 ∧ backlogPool.jobQueueDepth = 1 ∧
    backlogPool.freeWorkers ≤ backlogPool.jobQueueDepth ∧
    backlogPool.nWorkers = 1 ∧ backlogPool.maxWorkers = 2 ∧
    sizeSub backlogPool.freeWorkers backlogPool.jobQueueDepth = 2 ^ 64 - 1 ∧
    (virThreadPoolSendJob (okSendEnv 2) backlogPool 0 66).map
      (fun r => (r.1, r.2.1.nWorkers, r.2.2)) = some (0, 1, 0) := by
  decide

/-- C8: in every state reached from a pool that `virThreadPoolNewFull`
returned, for any `minWorkers`, `maxWorkers` and `prioWorkers` (the cap
fitting a `size_t`), by submissions (spawns succeeding or failing), worker
sections (taking a job, going to wait, leaving, also on a failed wait) and
the setting of `quit`, `nWorkers` is at most `maxWorkers`, the cap given to
the constructor. -/
theorem workers_upper_bound (env : NewEnv) (minWorkers maxWorkers prioWorkers : Nat)
    (s0 : Sys) (events : List PoolEvent) (s : Sys) (hmax : maxWorkers < SIZE_MOD)
    (hnew : virThreadPoolNewFull env minWorkers maxWorkers prioWorkers = some s0)
    (hrun : sysRun s0 events = some s) :
    s.pool.nWorkers ≤ s.pool.maxWorkers ∧ s.pool.maxWorkers = maxWorkers := by
  obtain ⟨hinv0, hmax0, _⟩ := newFull_counters env minWorkers maxWorkers prioWorkers s0 hmax hnew
  obtain ⟨hinv, hmaxeq, _⟩ := sysRun_counters events s0 s hinv0 hrun
  exact ⟨hinv.2.1, hmaxeq.trans hmax0⟩

theorem workers_upper_bound_witness :
    (sysRunState (newFullSys okNewEnv 3 2 1) exampleEvents).pool.nWorkers = 1 ∧
    ((sysRunState (newFullSys okNewEnv 3 2 1) exampleEvents).pool.nWorkers ≤
      (sysRunState (newFullSys okNewEnv 3 2 1) exampleEvents).pool.maxWorkers ∧
     (sysRunState (newFullSys okNewEnv 3 2 1) exampleEvents).pool.maxWorkers = 2) :=
  ⟨by decide,
   workers_upper_bound okNewEnv 3 2 1 (newFullSys okNewEnv 3 2 1) exampleEvents
    (sysRunState (newFullSys okNewEnv 3 2 1) exampleEvents) (by decide) (by rfl) (by rfl)⟩

/-- C9 as stated fails: from the pool of `virThreadPoolNewFull(1, 1, 0, ...)`
the one worker goes to wait, its condition wait fails and it leaves; `quit`
is unset, `minWorkers` is 1 and `nWorkers` is 0. -/
theorem workers_lower_bound_counterexample :
    ((virThreadPoolNewFull okNewEnv 1 1 0).bind (fun s0 => sysRun s0 exampleWaitFailure)).map
      (fun s => (s.pool.quit, s.pool.minWorkers, s.pool.nWorkers)) = some (false, 1, 0) := by
  decide

/-- C9, amended: in every state reached from a pool that
`virThreadPoolNewFull` returned by submissions, worker sections and the
setting of `quit`, none of them a worker whose condition wait fails, if
`quit` is unset then `nWorkers` is at least `minWorkers`, the clamped value
the constructor stored. -/
theorem workers_lower_bound (env : NewEnv) (minWorkers maxWorkers prioWorkers : Nat)
    (s0 : Sys) (events : List PoolEvent) (s : Sys) (hmax : maxWorkers < SIZE_MOD)
    (hnew : virThreadPoolNewFull env minWorkers maxWorkers prioWorkers = some s0)
    (hnofail : ∀ e ∈ events, e.condWaitFails = false)
    (hrun : sysRun s0 events = some s) (hquit : s.pool.quit = false) :
    s.pool.minWorkers = min minWorkers maxWorkers ∧ s.pool.minWorkers ≤ s.pool.nWorkers := by
  obtain ⟨hinv0, _, hmin0, hn0, _⟩ :=
    newFull_counters env minWorkers maxWorkers prioWorkers s0 hmax hnew
  obtain ⟨_, _, hmineq, _, hn⟩ := sysRun_counters events s0 s hinv0 hrun
  have := hn hnofail hquit
  refine ⟨hmineq.trans hmin0, ?_⟩
  rw [hmineq, ← hn0]
  exact this

theorem workers_lower_bound_witness :
    ((sysRunState (newFullSys okNewEnv 3 2 1) exampleRunningEvents).pool.minWorkers,
      (sysRunState (newFullSys okNewEnv 3 2 1) exampleRunningEvents).pool.nWorkers) = (2, 2) ∧
    ((sysRunState (newFullSys okNewEnv 3 2 1) exampleRunningEvents).pool.minWorkers = min 3 2 ∧
     (sysRunState (newFullSys okNewEnv 3 2 1) exampleRunningEvents).pool.minWorkers ≤
      (sysRunState (newFullSys okNewEnv 3 2 1) exampleRunningEvents).pool.nWorkers) :=
  ⟨by decide,
   workers_lower_bound okNewEnv 3 2 1 (newFullSys okNewEnv 3 2 1) exampleRunningEvents
    (sysRunState (newFullSys okNewEnv 3 2 1) exampleRunningEvents) (by decide) (by rfl)
    (by decide) (by rfl) (by decide)⟩


/-- When `VIR_EXPAND_N` fails, `virThreadPoolExpand` returns -1 at once:
nothing is spawned and the pool is as before. -/
theorem expand_grow_failure (env : ExpandEnv) (pool : virThreadPool) (gain : Nat)
    (priority : Bool) (hgrow : env.growOk = false) :
    virThreadPoolExpand env pool gain priority = (-1, pool, 0) := by
  simp [virThreadPoolExpand, hgrow]

/-- C10: once `VIR_EXPAND_N` has grown the worker array, so that the spawn
loop is run, for every class, gain and starting counter `n`: if all `gain`
spawns succeed, `virThreadPoolExpand` returns 0 with the counter of the
class at `n + gain` and `gain` workers started; if the first `i` spawns
succeed and the next one fails (`i < gain`, by data allocation or thread
creation), it returns -1 with the counter at `n + i`, the number of workers
started; the counter of the other class is unchanged either way.  The sums
are sums of `size_t` values, and are the plain sums where those fit a
`size_t`. -/
theorem expand_counter_accounting (env : ExpandEnv) (pool : virThreadPool) (gain : Nat)
    (priority : Bool) (hgrow : env.growOk = true) :
    ((∀ k, k < gain → env.spawn k = SpawnOutcome.started) →
      (virThreadPoolExpand env pool gain priority).1 = 0 ∧
      curWorkers (virThreadPoolExpand env pool gain priority).2.1 priority =
        sizeAdd (curWorkers pool priority) gain ∧
      (curWorkers pool priority + gain < SIZE_MOD →
        curWorkers (virThreadPoolExpand env pool gain priority).2.1 priority =
          curWorkers pool priority + gain) ∧
      curWorkers (virThreadPoolExpand env pool gain priority).2.1 (!priority) =
        curWorkers pool (!priority) ∧
      (virThreadPoolExpand env pool gain priority).2.2 = gain) ∧
    (∀ i, i < gain →
      (∀ k, k < i → env.spawn k = SpawnOutcome.started) →
      env.spawn i ≠ SpawnOutcome.started →
      (virThreadPoolExpand env pool gain priority).1 = -1 ∧
      curWorkers (virThreadPoolExpand env pool gain priority).2.1 priority =
        sizeAdd (curWorkers pool priority) i ∧
      (curWorkers pool priority + i < SIZE_MOD →
        curWorkers (virThreadPoolExpand env pool gain priority).2.1 priority =
          curWorkers pool priority + i) ∧
      curWorkers (virThreadPoolExpand env pool gain priority).2.1 (!priority) =
        curWorkers pool (!priority) ∧
      (virThreadPoolExpand env pool gain priority).2.2 = i) := by
  refine ⟨?_, ?_⟩
  · intro hall
    rw [expand_all_started env pool gain priority hgrow hall]
    refine ⟨rfl, (curWorkers_set _ _ _).1, ?_, (curWorkers_set _ _ _).2, rfl⟩
    intro hfit
    exact (curWorkers_set _ _ _).1.trans (sizeAdd_of_lt _ _ hfit)
  · intro i hi hbefore hfail
    rw [expand_failed_at env pool gain i priority hgrow hi hbefore hfail]
    refine ⟨rfl, (curWorkers_set _ _ _).1, ?_, ?_, rfl⟩
    · intro hfit
      exact (curWorkers_set _ _ _).1.trans (sizeAdd_of_lt _ _ hfit)
    · exact (curWorkers_set _ _ _).2.trans (curWorkers_set _ _ _).2

theorem expand_counter_accounting_witness :
    ((virThreadPoolExpand okExpandEnv examplePool 3 false).2.1.nWorkers = 4 ∧
      (virThreadPoolExpand failAtTwoEnv examplePool 5 true).2.1.nPrioWorkers = 3) ∧
    (failAtTwoEnv.growOk = true ∧ (2 < 5) ∧
      (∀ k, k < 2 → failAtTwoEnv.spawn k = SpawnOutcome.started) ∧
      failAtTwoEnv.spawn 2 ≠ SpawnOutcome.started) ∧
    ((virThreadPoolExpand failAtTwoEnv examplePool 5 true).1 = -1 ∧
      curWorkers (virThreadPoolExpand failAtTwoEnv examplePool 5 true).2.1 true =
        sizeAdd (curWorkers examplePool true) 2 ∧
      (curWorkers examplePool true + 2 < SIZE_MOD →
        curWorkers (virThreadPoolExpand failAtTwoEnv examplePool 5 true).2.1 true =
          curWorkers examplePool true + 2) ∧
      curWorkers (virThreadPoolExpand failAtTwoEnv examplePool 5 true).2.1 (!true) =
        curWorkers examplePool (!true) ∧
      (virThreadPoolExpand failAtTwoEnv examplePool 5 true).2.2 = 2) ∧
    ((virThreadPoolExpand okExpandEnv examplePool 3 false).1 = 0 ∧
      curWorkers (virThreadPoolExpand okExpandEnv examplePool 3 false).2.1 false =
        sizeAdd (curWorkers examplePool false) 3 ∧
      (curWorkers examplePool false + 3 < SIZE_MOD →
        curWorkers (virThreadPoolExpand okExpandEnv examplePool 3 false).2.1 false =
          curWorkers examplePool false + 3) ∧
      curWorkers (virThreadPoolExpand okExpandEnv examplePool 3 false).2.1 (!false) =
        curWorkers examplePool (!false) ∧
      (virThreadPoolExpand okExpandEnv examplePool 3 false).2.2 = 3) :=
  ⟨⟨by decide, by decide⟩, ⟨rfl, by decide, by decide, by decide⟩,
   (expand_counter_accounting failAtTwoEnv examplePool 5 true rfl).2 2 (by decide)
     (by decide) (by decide),
   (expand_counter_accounting okExpandEnv examplePool 3 false rfl).1 (by decide)⟩

/-- What `virThreadPoolExpand` returns is 0 or -1. -/
theorem expand_ret (env : ExpandEnv) (pool : virThreadPool) (gain : Nat) (priority : Bool) :
    (virThreadPoolExpand env pool gain priority).1 = 0 ∨
    (virThreadPoolExpand env pool gain priority).1 = -1 := by
  unfold virThreadPoolExpand
  by_cases hg : env.growOk = false
  · rw [if_pos hg]; right; rfl
  · rw [if_neg hg]
    simp only
    split
    · left; rfl
    · right; rfl

/-- The expansion step of a submission returns below zero exactly when the
guard of lines 315-316 holds and `virThreadPoolExpand` fails. -/
theorem sendJobExpand_ret (env : ExpandEnv) (pool : virThreadPool) :
    ((sendJobExpand env pool).1 < 0 ↔
      (sizeSub pool.freeWorkers pool.jobQueueDepth ≤ 0 ∧ pool.nWorkers < pool.maxWorkers) ∧
        (virThreadPoolExpand env pool 1 false).1 < 0) ∧
    ((sendJobExpand env pool).1 = 0 ∨ (sendJobExpand env pool).1 = -1) := by
  unfold sendJobExpand
  by_cases hc : sizeSub pool.freeWorkers pool.jobQueueDepth ≤ 0 ∧ pool.nWorkers < pool.maxWorkers
  · rw [if_pos hc]
    exact ⟨⟨fun h => ⟨hc, h⟩, fun h => h.2⟩, expand_ret _ _ _ _⟩
  · rw [if_neg hc]
    refine ⟨⟨fun h => ?_, fun h => absurd h.1 hc⟩, Or.inl rfl⟩
    simp at h

/-- C11: on a pool whose pending jobs are the well-formed list `l`, of any
length, with `VIR_ALLOC(job)` succeeding, `virThreadPoolSendJob` returns 0 or
-1; it returns -1 exactly when `quit` is set or the guard of the expansion
holds (so that it tries to spawn an ordinary worker) and
`virThreadPoolExpand` fails; whenever it returns 0 the queue is `l` followed
by the new job with the priority and data given.  In particular with `quit`
unset and `nWorkers` equal to `maxWorkers` it returns 0, starts no thread
and the job is pending. -/
theorem sendJob_admission (env : SendEnv) (pool : virThreadPool) (priority data : Nat)
    (l : List Nat) (job : Nat) (hl : IsQueue pool l) (halloc : env.jobAlloc = some job)
    (hfresh : FreshAlloc pool.mem env.jobAlloc) :
    ∃ ret pool2 started,
      virThreadPoolSendJob env pool priority data = some (ret, pool2, started) ∧
      (ret = 0 ∨ ret = -1) ∧
      (ret = -1 ↔ pool.quit = true ∨
        ((sizeSub pool.freeWorkers pool.jobQueueDepth ≤ 0 ∧ pool.nWorkers < pool.maxWorkers) ∧
          (virThreadPoolExpand env.expand pool 1 false).1 < 0)) ∧
      (ret = 0 → IsQueue pool2 (l ++ [job]) ∧
        jobsOf pool2.mem (l ++ [job]) = jobsOf pool.mem l ++ [(priority, data)]) ∧
      (pool.quit = false → pool.nWorkers = pool.maxWorkers → ret = 0 ∧ started = 0) := by
  by_cases hq : pool.quit = true
  · refine ⟨-1, pool, 0, by simp [virThreadPoolSendJob, hq], Or.inr rfl,
      ⟨fun _ => Or.inl hq, fun _ => rfl⟩, (fun h => by simp at h), ?_⟩
    intro hq2; rw [hq] at hq2; cases hq2
  · have hqf : pool.quit = false := by simpa using hq
    obtain ⟨hlt, hret01⟩ := sendJobExpand_ret env.expand pool
    have hsame := sendJobExpand_same env.expand pool
    by_cases hneg : (sendJobExpand env.expand pool).1 < 0
    · -- the expansion failed
      refine ⟨-1, (sendJobExpand env.expand pool).2.1, (sendJobExpand env.expand pool).2.2, ?_,
        Or.inr rfl, ⟨fun _ => Or.inr (hlt.1 hneg), fun _ => rfl⟩, (fun h => by simp at h), ?_⟩
      · unfold virThreadPoolSendJob
        rw [if_neg hq]
        simp only [hneg, if_true]
      · intro _ heq
        have := (hlt.1 hneg).1.2
        omega
    · -- no expansion, or one that succeeded: the job is enqueued
      obtain ⟨hj0, hjb, hjm⟩ := hfresh job halloc
      have hl1 := isQueue_of_same _ _ _ hsame hl
      have hmemeq : (sendJobExpand env.expand pool).2.1.mem = pool.mem := hsame.2.2.2.2.2.2
      have hjm1 : (sendJobExpand env.expand pool).2.1.mem job = none := by
        rw [hmemeq]; exact hjm
      obtain ⟨pool2, henq, hq2, hjobs, _⟩ :=
        enqueueJob_spec _ l job priority data hl1 hj0 hjb hjm1
      refine ⟨0, pool2, (sendJobExpand env.expand pool).2.2, ?_, Or.inl rfl, ⟨?_, ?_⟩,
        fun _ => ⟨hq2, by rw [hjobs, hmemeq]⟩, ?_⟩
      · unfold virThreadPoolSendJob
        rw [if_neg hq]
        simp only [hneg, if_false, halloc, henq]
      · intro h; simp at h
      · rintro (h | h)
        · exact absurd h hq
        · exact absurd (hlt.2 h) hneg
      · intro _ heq
        refine ⟨rfl, ?_⟩
        have hc : ¬ (sizeSub pool.freeWorkers pool.jobQueueDepth ≤ 0 ∧
            pool.nWorkers < pool.maxWorkers) := by
          intro hc; have := hc.2; omega
        unfold sendJobExpand
        rw [if_neg hc]

theorem sendJob_admission_witness :
    ((virThreadPoolSendJob (okSendEnv 1) (newFullSys okNewEnv 0 0 0).pool 0 65).map
        (fun r => (r.1, r.2.1.jobList, r.2.1.jobQueueDepth, r.2.1.nWorkers, r.2.2)) =
      some (0, ⟨1, 1, 0⟩, 1, 0, 0) ∧
     (virThreadPoolSendJob ⟨noGrowEnv, some 1⟩ (newFullSys okNewEnv 0 1 0).pool 0 65).map
        (fun r => (r.1, r.2.1.jobList, r.2.1.jobQueueDepth, r.2.1.nWorkers, r.2.2)) =
      some (-1, ⟨0, 0, 0⟩, 0, 0, 0)) ∧
    ∃ ret pool2 started,
      virThreadPoolSendJob (okSendEnv 1) (newFullSys okNewEnv 0 0 0).pool 0 65 =
        some (ret, pool2, started) ∧
      (ret = 0 ∨ ret = -1) ∧
      (ret = -1 ↔ (newFullSys okNewEnv 0 0 0).pool.quit = true ∨
        ((sizeSub (newFullSys okNewEnv 0 0 0).pool.freeWorkers
              (newFullSys okNewEnv 0 0 0).pool.jobQueueDepth ≤ 0 ∧
            (newFullSys okNewEnv 0 0 0).pool.nWorkers <
              (newFullSys okNewEnv 0 0 0).pool.maxWorkers) ∧
          (virThreadPoolExpand (okSendEnv 1).expand
            (newFullSys okNewEnv 0 0 0).pool 1 false).1 < 0)) ∧
      (ret = 0 → IsQueue pool2 ([] ++ [1]) ∧
        jobsOf pool2.mem ([] ++ [1]) =
          jobsOf (newFullSys okNewEnv 0 0 0).pool.mem [] ++ [(0, 65)]) ∧
      ((newFullSys okNewEnv 0 0 0).pool.quit = false →
        (newFullSys okNewEnv 0 0 0).pool.nWorkers =
          (newFullSys okNewEnv 0 0 0).pool.maxWorkers → ret = 0 ∧ started = 0) :=
  ⟨⟨by decide, by decide⟩,
   sendJob_admission (okSendEnv 1) (newFullSys okNewEnv 0 0 0).pool 0 65 [] 1
    (wellFormed_empty _ (by decide) (by decide)).1 rfl (by decide)⟩

end VirThreadPool

namespace AcrnManager

/-- Whenever `read` succeeds the NUL is written inside the buffer, behind
the bytes read, and the count is returned. -/
theorem ioRead_success (got : Int) (bytes : List Nat) (h0 : 0 ≤ got)
    (hmax : got ≤ READ_COUNT) (hlen : (bytes.length : Int) = got) :
    (acrnManagerIORead got bytes).nulIndex = got ∧
    (acrnManagerIORead got bytes).ret = got ∧
    (acrnManagerIORead got bytes).buffer =
      some (bytes ++ List.replicate (BUFFER_SIZE - bytes.length) 0) := by
  have hneg : ¬ got < 0 := by omega
  have hlenle : bytes.length ≤ 1023 := by
    unfold READ_COUNT at hmax; omega
  unfold acrnManagerIORead
  simp only [hneg, if_false, zero_add, true_and]
  unfold bufferStore
  have hB : BUFFER_SIZE = 1024 := rfl
  have hl : (bytes ++ List.drop bytes.length (List.replicate BUFFER_SIZE 0)).length = 1024 := by
    simp only [List.length_append, List.length_drop, List.length_replicate]; omega
  have hin : 0 ≤ got ∧ got < ((bytes ++ List.drop bytes.length
      (List.replicate BUFFER_SIZE 0)).length : Nat) := by
    rw [hl]; unfold READ_COUNT at hmax; exact ⟨h0, by omega⟩
  rw [if_pos hin]
  have hidx : got.toNat = bytes.length := by omega
  rw [hidx]
  congr 1
  rw [List.drop_replicate]
  rw [List.set_append_right _ _ (le_refl _)]
  simp only [Nat.sub_self]
  congr 1
  have hpos : 0 < BUFFER_SIZE - bytes.length := by omega
  cases hn : BUFFER_SIZE - bytes.length with
  | zero => omega
  | succ n => simp [List.replicate_succ]

/-- The value returned is negative exactly when `read` failed. -/
theorem ioRead_ret_negative_iff (got : Int) (bytes : List Nat) (h : ReadOutcome got bytes) :
    (acrnManagerIORead got bytes).ret < 0 ↔ got = -1 := by
  rcases h with ⟨rfl, rfl⟩ | ⟨h0, hmax, hlen⟩
  · simp [acrnManagerIORead]
  · rw [(ioRead_success got bytes h0 hmax hlen).2.1]
    omega

/-- C12: when `read` fails (`got` is -1) `acrnManagerIORead` does not return
early: it goes on to `ret += got`, so it returns -2, and to
`mon->buffer[got] = 0` with `got` still -1, an index that is not within
`0 .. 1023`; the write falls one byte before the buffer. -/
theorem ioRead_failure_writes_before_buffer :
    ReadOutcome (-1) [] ∧
    (acrnManagerIORead (-1) []).nulIndex = -1 ∧
    ¬ (0 ≤ (acrnManagerIORead (-1) []).nulIndex ∧
        (acrnManagerIORead (-1) []).nulIndex ≤ 1023) ∧
    (acrnManagerIORead (-1) []).buffer = none ∧
    (acrnManagerIORead (-1) []).ret = -2 := by
  refine ⟨Or.inl ⟨rfl, rfl⟩, by decide, by decide, by decide, by decide⟩


end AcrnManager
